import Mathlib

/-!
# Verification of the PCB auto-routing and placement core

A shallow embedding of the routing/placement core of the pcb-automation-pipeline
repository.  The Python implementation of the core (Board Grid, Netlist Model,
Placement Engine, Path Router, Routing Orchestrator) is not shipped in the
repository snapshot; the definitions below are modelled from the specification
document, which is the authority for the core's behaviour.  The shipped
artifacts that are present (docs/API.md and configs/pipeline_config.yaml)
are embedded directly where they decide a claim (the `auto_route` stub and
the shipped default configuration).

All dimensions (board size, clearance, trace width, cell pitch) are integers
in micrometres, so `ceil(clearance / cell_pitch)` is exact natural-number
arithmetic.  Diagonal path-cost contributions are kept symbolically as a
coefficient of √2, so shortest-path optimality is stated over the reals
with the exact √2 factor of the specification.
-/

set_option maxRecDepth 4000

namespace PCB

/-- A grid cell coordinate (cell indices, not micrometres). -/
structure Pt where
  x : Nat
  y : Nat
deriving DecidableEq

/-- Distance between two naturals. -/
def natDist (a b : Nat) : Nat := max a b - min a b

/-- Chebyshev (ring) cell distance; the clearance buffer in the spec is a
square ring of cells around an occupied cell. -/
def cheb (p q : Pt) : Nat := max (natDist p.x q.x) (natDist p.y q.y)

theorem natDist_comm (a b : Nat) : natDist a b = natDist b a := by
  simp [natDist, Nat.max_comm, Nat.min_comm]

theorem cheb_comm (p q : Pt) : cheb p q = cheb q p := by
  simp [cheb, natDist_comm]

/-- Modelled from the spec: per-cell occupancy state of the Board Grid
(`free | obstacle (component courtyard) | trace(net-id) | via`). -/
inductive Cell where
  | free : Cell
  | obstacle : Cell
  | trace (net : String) : Cell
  | via (net : String) : Cell
deriving DecidableEq

/-- Modelled from the spec: the Board Grid.  `width`/`height` are in cells,
`pitch` and `clearance` in micrometres; `occ x y layer` is the per-layer
occupancy map. -/
structure Grid where
  width : Nat
  height : Nat
  layers : Nat
  pitch : Nat
  clearance : Nat
  occ : Nat → Nat → Nat → Cell

/-- The value `ceil(clearance / cell_pitch)`: the number of buffer rings that must
separate traces of different nets. -/
def Grid.clearRing (g : Grid) : Nat := (g.clearance + g.pitch - 1) / g.pitch

/-- Cell-and-layer bounds check. -/
def Grid.inBounds (g : Grid) (p : Pt) (layer : Nat) : Bool :=
  p.x < g.width && p.y < g.height && layer < g.layers

/-- Does this cell hold a trace of a net other than `net`? -/
def Cell.otherTrace (c : Cell) (net : String) : Bool :=
  match c with
  | .trace n => n != net
  | _ => false

/-- No trace of a different net lies strictly within the clearance ring
(`cheb < clearRing`) of `p` on this layer. -/
def Grid.clearOK (g : Grid) (p : Pt) (layer : Nat) (net : String) : Bool :=
  (List.range g.width).all fun qx =>
    (List.range g.height).all fun qy =>
      !(decide (cheb p ⟨qx, qy⟩ < g.clearRing)) ||
        !((g.occ qx qy layer).otherTrace net)

/-- Modelled from the spec: `is_traversable(cell, layer, net_id)` — true if the
cell is in bounds, free or already assigned to `net_id` (self-crossing is
permitted, e.g. as a via landing), and not within clearance distance of a
different net's trace. -/
def Grid.is_traversable (g : Grid) (p : Pt) (layer : Nat) (net : String) : Bool :=
  g.inBounds p layer &&
  (match g.occ p.x p.y layer with
   | .free => true
   | .trace n => n == net
   | .via n => n == net
   | .obstacle => false) &&
  g.clearOK p layer net

/-- Modelled from the spec: `reserve(cells, layer, net_id)` commits a path's
occupancy by writing `trace(net_id)` into the listed cells of one layer. -/
def Grid.reserve (g : Grid) (cells : List Pt) (layer : Nat) (net : String) : Grid :=
  { g with occ := fun x y l =>
      if l = layer ∧ Pt.mk x y ∈ cells then Cell.trace net else g.occ x y l }

/-- Modelled from the spec: `release(cells, layer, net_id)` undoes a path's
occupancy, freeing each listed cell of the layer that currently carries a
trace of this net. -/
def Grid.release (g : Grid) (cells : List Pt) (layer : Nat) (net : String) : Grid :=
  { g with occ := fun x y l =>
      if l = layer ∧ Pt.mk x y ∈ cells then
        match g.occ x y l with
        | .trace n => if n = net then Cell.free else Cell.trace n
        | c => c
      else g.occ x y l }

/-- Calling `reserve` followed by `release` on the same cells/layer/net is the
identity on grids whose listed cells were free beforehand. -/
theorem release_reserve (g : Grid) (cells : List Pt) (layer : Nat) (net : String)
    (h : ∀ p ∈ cells, g.occ p.x p.y layer = Cell.free) :
    (g.reserve cells layer net).release cells layer net = g := by
  cases g with
  | mk w ht ly pi cl occ =>
    simp only [Grid.reserve, Grid.release, Grid.mk.injEq, true_and]
    funext x y l
    by_cases hc : l = layer ∧ Pt.mk x y ∈ cells
    · simp only [hc, if_pos, and_true]
      have := h ⟨x, y⟩ hc.2
      simp only at this
      exact this.symm
    · simp [hc]

/-!
## Path costs

A path cost is `units + diag * √2` micrometres: straight moves, via penalties
and turn penalties accumulate in `units`; each diagonal move adds the cell
pitch to `diag` (the spec costs diagonal moves at √2 times the pitch).
Comparison is decided exactly with integer arithmetic and proved to agree
with the real-number order.
-/

/-- Exact path-cost representation: the value `units + diag * √2`. -/
structure Cost where
  units : Nat
  diag : Nat
deriving DecidableEq

namespace Cost

/-- The real value of a cost (the spec's cost model, diagonals at √2×). -/
noncomputable def toReal (c : Cost) : ℝ := c.units + c.diag * Real.sqrt 2

def add (a b : Cost) : Cost := ⟨a.units + b.units, a.diag + b.diag⟩

/-- Decision procedure for `toReal a ≤ toReal b`, by comparing the rational
and √2 parts with integer arithmetic (squaring out the √2). -/
def leB (a b : Cost) : Bool :=
  if a.diag ≤ b.diag then
    (decide (a.units ≤ b.units)) ||
      (decide ((a.units - b.units) ^ 2 ≤ 2 * (b.diag - a.diag) ^ 2))
  else
    (decide (a.units ≤ b.units)) &&
      (decide (2 * (a.diag - b.diag) ^ 2 ≤ (b.units - a.units) ^ 2))

theorem toReal_add (a b : Cost) : (a.add b).toReal = a.toReal + b.toReal := by
  simp only [add, toReal]
  push_cast
  ring

theorem toReal_nonneg (a : Cost) : 0 ≤ a.toReal := by
  have h2 : (0 : ℝ) ≤ Real.sqrt 2 := Real.sqrt_nonneg 2
  have hu : (0 : ℝ) ≤ (a.units : ℝ) := Nat.cast_nonneg _
  have hd : (0 : ℝ) ≤ (a.diag : ℝ) := Nat.cast_nonneg _
  simp only [toReal]
  nlinarith

theorem sq_sqrt_two : Real.sqrt 2 ^ 2 = 2 := Real.sq_sqrt (by norm_num)

theorem sqrt_two_pos : (0 : ℝ) < Real.sqrt 2 :=
  Real.sqrt_pos.mpr (by norm_num)

/-- For nonnegative reals, `u ≤ d * √2` iff `u² ≤ 2 d²`. -/
theorem le_mul_sqrt_two_iff (u d : ℝ) (hu : 0 ≤ u) (hd : 0 ≤ d) :
    u ≤ d * Real.sqrt 2 ↔ u ^ 2 ≤ 2 * d ^ 2 := by
  have hsq : (d * Real.sqrt 2) ^ 2 = 2 * d ^ 2 := by
    rw [mul_pow, sq_sqrt_two]
    ring
  constructor
  · intro h
    have h1 : u ^ 2 ≤ (d * Real.sqrt 2) ^ 2 := pow_le_pow_left₀ hu h 2
    linarith
  · intro h
    by_contra hcon
    push_neg at hcon
    have h1 : (d * Real.sqrt 2) ^ 2 < u ^ 2 :=
      pow_lt_pow_left₀ hcon (by positivity) (by norm_num)
    linarith

/-- For nonnegative reals, `x * √2 ≤ y` iff `2 x² ≤ y²`. -/
theorem mul_sqrt_two_le_iff (x y : ℝ) (hx : 0 ≤ x) (hy : 0 ≤ y) :
    x * Real.sqrt 2 ≤ y ↔ 2 * x ^ 2 ≤ y ^ 2 := by
  have hsq : (x * Real.sqrt 2) ^ 2 = 2 * x ^ 2 := by
    rw [mul_pow, sq_sqrt_two]
    ring
  constructor
  · intro h
    have h1 : (x * Real.sqrt 2) ^ 2 ≤ y ^ 2 := pow_le_pow_left₀ (by positivity) h 2
    linarith
  · intro h
    by_contra hcon
    push_neg at hcon
    have h1 : y ^ 2 < (x * Real.sqrt 2) ^ 2 := pow_lt_pow_left₀ hcon hy (by norm_num)
    linarith

/-- The integer decision procedure agrees with the real order. -/
theorem leB_iff (a b : Cost) : leB a b = true ↔ a.toReal ≤ b.toReal := by
  have hs := sq_sqrt_two
  have hpos := sqrt_two_pos
  simp only [leB, toReal]
  by_cases hdiag : a.diag ≤ b.diag
  · simp only [hdiag, if_true, Bool.or_eq_true, decide_eq_true_eq]
    by_cases hunits : a.units ≤ b.units
    · simp only [hunits, true_or, true_iff]
      have h1 : (a.units : ℝ) ≤ (b.units : ℝ) := Nat.cast_le.mpr hunits
      have h2 : (a.diag : ℝ) ≤ (b.diag : ℝ) := Nat.cast_le.mpr hdiag
      nlinarith
    · simp only [hunits, false_or]
      push_neg at hunits
      have hu' : (b.units : ℝ) < (a.units : ℝ) := Nat.cast_lt.mpr hunits
      have hd' : (a.diag : ℝ) ≤ (b.diag : ℝ) := Nat.cast_le.mpr hdiag
      have hsub : ((a.units - b.units : Nat) : ℝ) = (a.units : ℝ) - b.units := by
        rw [Nat.cast_sub hunits.le]
      have hdsub : ((b.diag - a.diag : Nat) : ℝ) = (b.diag : ℝ) - a.diag := by
        rw [Nat.cast_sub hdiag]
      rw [show ((a.units : ℝ) + a.diag * Real.sqrt 2 ≤ b.units + b.diag * Real.sqrt 2) ↔
          ((a.units : ℝ) - b.units ≤ ((b.diag : ℝ) - a.diag) * Real.sqrt 2) by
        constructor <;> intro h <;> nlinarith]
      rw [← hsub, ← hdsub,
        le_mul_sqrt_two_iff _ _ (Nat.cast_nonneg _) (Nat.cast_nonneg _)]
      constructor
      · intro h
        exact_mod_cast h
      · intro h
        exact_mod_cast h
  · simp only [hdiag, if_false, Bool.and_eq_true, decide_eq_true_eq]
    push_neg at hdiag
    have hd' : (b.diag : ℝ) < (a.diag : ℝ) := Nat.cast_lt.mpr hdiag
    have hdsub : ((a.diag - b.diag : Nat) : ℝ) = (a.diag : ℝ) - b.diag := by
      rw [Nat.cast_sub hdiag.le]
    constructor
    · rintro ⟨hu, hsq⟩
      have hu' : (a.units : ℝ) ≤ (b.units : ℝ) := Nat.cast_le.mpr hu
      have husub : ((b.units - a.units : Nat) : ℝ) = (b.units : ℝ) - a.units := by
        rw [Nat.cast_sub hu]
      have hsq' : (2 : ℝ) * ((a.diag : ℝ) - b.diag) ^ 2 ≤ ((b.units : ℝ) - a.units) ^ 2 := by
        rw [← hdsub, ← husub]
        exact_mod_cast hsq
      have key : ((a.diag : ℝ) - b.diag) * Real.sqrt 2 ≤ (b.units : ℝ) - a.units :=
        (mul_sqrt_two_le_iff ((a.diag : ℝ) - b.diag) ((b.units : ℝ) - a.units)
          (by linarith) (by linarith)).mpr hsq'
      nlinarith
    · intro h
      have hu : a.units ≤ b.units := by
        by_contra hcon
        push_neg at hcon
        have h1 : (b.units : ℝ) < (a.units : ℝ) := Nat.cast_lt.mpr hcon
        nlinarith
      refine ⟨hu, ?_⟩
      have hu' : (a.units : ℝ) ≤ (b.units : ℝ) := Nat.cast_le.mpr hu
      have key : ((a.diag : ℝ) - b.diag) * Real.sqrt 2 ≤ (b.units : ℝ) - a.units := by
        nlinarith
      have hsq' : (2 : ℝ) * ((a.diag : ℝ) - b.diag) ^ 2 ≤ ((b.units : ℝ) - a.units) ^ 2 :=
        (mul_sqrt_two_le_iff ((a.diag : ℝ) - b.diag) ((b.units : ℝ) - a.units)
          (by linarith) (by linarith)).mp key
      have husub : ((b.units - a.units : Nat) : ℝ) = (b.units : ℝ) - a.units := by
        rw [Nat.cast_sub hu]
      have hfin : (2 : ℝ) * ((a.diag - b.diag : Nat) : ℝ) ^ 2 ≤
          ((b.units - a.units : Nat) : ℝ) ^ 2 := by
        rw [hdsub, husub]
        exact hsq'
      exact_mod_cast hfin

/-- A cost whose real value is nonpositive is the zero cost. -/
theorem eq_zero_of_toReal_nonpos (a : Cost) (h : a.toReal ≤ 0) : a = ⟨0, 0⟩ := by
  have h2 := sqrt_two_pos
  have hu : (0 : ℝ) ≤ (a.units : ℝ) := Nat.cast_nonneg _
  have hd : (0 : ℝ) ≤ (a.diag : ℝ) := Nat.cast_nonneg _
  simp only [toReal] at h
  have hu0 : (a.units : ℝ) = 0 := by nlinarith
  have hd0 : (a.diag : ℝ) = 0 := by nlinarith
  cases a with
  | mk u d =>
    simp only [Cost.mk.injEq]
    constructor
    · exact_mod_cast hu0
    · exact_mod_cast hd0

end Cost

/-!
## Path Router

Modelled from the spec §4.4: a grid-based shortest-path search per layer with
uniform edge cost equal to the cell pitch, diagonal moves costed at √2×,
layer changes as extra graph edges at via-eligible cells with an extra via
cost penalty, and a small fixed penalty per turn as tie-break.

Search states carry the incoming movement direction so the turn penalty is
part of the edge cost; `dir = 8` means "no direction yet" (the start state).
The shortest-path distances are computed by iterating the Bellman relaxation
operator over the (finite) state space until it reaches a fixed point, within
the configured search budget; exhausting the budget is a search failure,
which the orchestrator treats exactly like `NoPathFound`.
-/

/-- A search state: cell, layer and incoming movement direction (0–7 are the
eight grid directions, 8 means "no direction yet"). -/
structure RState where
  x : Nat
  y : Nat
  layer : Nat
  dir : Nat
deriving DecidableEq

def RState.pt (σ : RState) : Pt := ⟨σ.x, σ.y⟩

/-- Move one cell in direction `d` (0 = +x, 1 = −x, 2 = +y, 3 = −y,
4..7 = the four diagonals); `none` when the move leaves the grid at 0. -/
def stepPt (p : Pt) (d : Nat) : Option Pt :=
  match d with
  | 0 => some ⟨p.x + 1, p.y⟩
  | 1 => if p.x = 0 then none else some ⟨p.x - 1, p.y⟩
  | 2 => some ⟨p.x, p.y + 1⟩
  | 3 => if p.y = 0 then none else some ⟨p.x, p.y - 1⟩
  | 4 => some ⟨p.x + 1, p.y + 1⟩
  | 5 => if p.y = 0 then none else some ⟨p.x + 1, p.y - 1⟩
  | 6 => if p.x = 0 then none else some ⟨p.x - 1, p.y + 1⟩
  | 7 => if p.x = 0 ∨ p.y = 0 then none else some ⟨p.x - 1, p.y - 1⟩
  | _ => none

/-- Directions 4–7 are the diagonal moves. -/
def isDiag (d : Nat) : Bool := 4 ≤ d && d < 8

/-- The cost of the single search edge `σ → τ`, or `none` when there is no
such edge.  Planar edges move one cell in direction `τ.dir` on the same layer
into a cell traversable for `net`, at cost pitch (straight) or pitch·√2
(diagonal) plus the turn penalty `tc` when the direction changes; via edges
move one layer up or down at the same cell — the via-eligible condition is
that the target cell on the new layer is traversable for `net` — at the via
cost penalty `vc`. -/
def edgeCost (g : Grid) (net : String) (vc tc : Nat) (σ τ : RState) : Option Cost :=
  if τ.layer = σ.layer then
    match stepPt σ.pt τ.dir with
    | none => none
    | some p =>
      if τ.x = p.x ∧ τ.y = p.y ∧ τ.dir < 8 ∧ g.is_traversable p σ.layer net then
        let base : Cost := if isDiag τ.dir then ⟨0, g.pitch⟩ else ⟨g.pitch, 0⟩
        let turn : Cost := if σ.dir ≠ 8 ∧ σ.dir ≠ τ.dir then ⟨tc, 0⟩ else ⟨0, 0⟩
        some (base.add turn)
      else none
  else
    if (τ.layer = σ.layer + 1 ∨ τ.layer + 1 = σ.layer) ∧
        τ.x = σ.x ∧ τ.y = σ.y ∧ τ.dir = σ.dir then
      if g.is_traversable τ.pt τ.layer net then some ⟨vc, 0⟩ else none
    else none

/-- All search states of a grid. -/
def allStates (g : Grid) : List RState :=
  (List.range g.width).flatMap fun x =>
    (List.range g.height).flatMap fun y =>
      (List.range g.layers).flatMap fun l =>
        (List.range 9).map fun d => ⟨x, y, l, d⟩

/-- Tentative shortest-path distances, as an association list. -/
abbrev Dist := List (RState × Cost)

def lookupD (d : Dist) (σ : RState) : Option Cost :=
  match List.find? (fun e => decide (e.1 = σ)) d with
  | some e => some e.2
  | none => none

/-- Minimum of two optional costs (`none` = unreachable = +∞). -/
def optMin (a b : Option Cost) : Option Cost :=
  match a, b with
  | none, b => b
  | some x, none => some x
  | some x, some y => if Cost.leB x y then some x else some y

/-- The tentative distance of `τ` through predecessor `σ`. -/
def candCost (g : Grid) (net : String) (vc tc : Nat) (d : Dist) (τ σ : RState) :
    Option Cost :=
  match lookupD d σ, edgeCost g net vc tc σ τ with
  | some c, some e => some (c.add e)
  | _, _ => none

/-- One Bellman relaxation of state `τ`: the minimum of its previous value
and each predecessor's value plus the connecting edge cost. -/
def newVal (g : Grid) (net : String) (vc tc : Nat) (d : Dist) (τ : RState) :
    Option Cost :=
  (allStates g).foldl (fun acc σ => optMin acc (candCost g net vc tc d τ σ)) (lookupD d τ)

/-- One full relaxation round over all states. -/
def relaxRound (g : Grid) (net : String) (vc tc : Nat) (d : Dist) : Dist :=
  (allStates g).filterMap fun τ =>
    (newVal g net vc tc d τ).map fun c => (τ, c)

/-- Iterate relaxation until a fixed point, within the search budget `fuel`;
`none` when the budget is exhausted first. -/
def solveDist (g : Grid) (net : String) (vc tc : Nat) :
    Nat → Dist → Option Dist
  | 0, _ => none
  | fuel + 1, d =>
    let d' := relaxRound g net vc tc d
    if d' = d then some d else solveDist g net vc tc fuel d'

/-- An endpoint handed to the Path Router: a grid cell plus a layer. -/
structure EndPt where
  pt : Pt
  layer : Nat
deriving DecidableEq

/-- The search start state of an endpoint (no incoming direction yet). -/
def startSt (s : EndPt) : RState := ⟨s.pt.x, s.pt.y, s.layer, 8⟩

/-- Does the predecessor `σ` explain the settled distance `cτ` of `τ`? -/
def predOK (g : Grid) (net : String) (vc tc : Nat) (df : Dist) (τ : RState)
    (cτ : Cost) (σ : RState) : Bool :=
  match lookupD df σ, edgeCost g net vc tc σ τ with
  | some cσ, some e => decide (cσ.add e = cτ)
  | _, _ => false

/-- Reconstruct a shortest path by walking predecessors back to the start
state.  The fuel only bounds the walk; on success, the result is a chain of
search states from `start` to `τ`. -/
def backtrack (g : Grid) (net : String) (vc tc : Nat) (df : Dist) (start : RState) :
    Nat → RState → Option (List RState)
  | 0, _ => none
  | fuel + 1, τ =>
    if τ = start then some [τ]
    else
      match lookupD df τ with
      | none => none
      | some cτ =>
        match List.find? (predOK g net vc tc df τ cτ) (allStates g) with
        | none => none
        | some σ => (backtrack g net vc tc df start fuel σ).map (· ++ [τ])

/-- One step of the target-state selection: keep the `leB`-least settled
distance, first-minimal on ties (hence deterministic). -/
def btStep (df : Dist) (t : EndPt) (acc : Option (RState × Cost)) (d : Nat) :
    Option (RState × Cost) :=
  match lookupD df ⟨t.pt.x, t.pt.y, t.layer, d⟩, acc with
  | some c, none => some (⟨t.pt.x, t.pt.y, t.layer, d⟩, c)
  | some c, some pr => if Cost.leB pr.2 c then some pr
                       else some (⟨t.pt.x, t.pt.y, t.layer, d⟩, c)
  | none, a => a

/-- Among the nine direction-states of the target cell, the `leB`-least
settled distance. -/
def bestTarget (df : Dist) (t : EndPt) : Option (RState × Cost) :=
  (List.range 9).foldl (btStep df t) none

/-- The Path Router's result: the state path and its cost. -/
structure PathResult where
  path : List RState
  cost : Cost
deriving DecidableEq

/-- Modelled from the spec: the Path Router.  Checks that both endpoints are
traversable (hence in bounds) for the net, computes exact shortest-path
distances over the traversable cells (all layers, via edges included),
picks the best target state and reconstructs the path.  Any failure —
untraversable endpoint, search budget exhausted, unreachable target —
yields `none` (`NoPathFound`). -/
def findPath (g : Grid) (net : String) (vc tc fuel : Nat) (s t : EndPt) :
    Option PathResult :=
  if g.is_traversable s.pt s.layer net && g.is_traversable t.pt t.layer net then
    match solveDist g net vc tc fuel [(startSt s, ⟨0, 0⟩)] with
    | none => none
    | some df =>
      match bestTarget df t with
      | none => none
      | some (τ, c) =>
        match backtrack g net vc tc df (startSt s)
            (g.width * g.height * g.layers * 9 + 1) τ with
        | none => none
        | some l => some ⟨l, c⟩
  else none

/-!
### Chain semantics

The ground truth the router is verified against: a chain is a list of search
states linked by search edges; its cost is the sum of the edge costs.
-/

/-- Cost of continuing from `σ` through the successive states of `rest`. -/
def tailCost (g : Grid) (net : String) (vc tc : Nat) :
    RState → List RState → Option Cost
  | _, [] => some ⟨0, 0⟩
  | σ, τ :: rest =>
    match edgeCost g net vc tc σ τ, tailCost g net vc tc τ rest with
    | some e, some c => some (e.add c)
    | _, _ => none

/-- Cost of a whole chain (`none` for the empty list or any broken link). -/
def chainCost (g : Grid) (net : String) (vc tc : Nat) : List RState → Option Cost
  | [] => none
  | σ :: rest => tailCost g net vc tc σ rest

/-- A valid route from `s` to `t` for `net`: a chain of search-edge-linked
states that starts at the start state of `s`, ends at the cell and layer of
`t`, and has cost `c`. -/
def ValidChain (g : Grid) (net : String) (vc tc : Nat) (s t : EndPt)
    (l : List RState) (c : Cost) : Prop :=
  l.head? = some (startSt s) ∧
  (∃ τ, l.getLast? = some τ ∧ τ.x = t.pt.x ∧ τ.y = t.pt.y ∧ τ.layer = t.layer) ∧
  chainCost g net vc tc l = some c

/-- The cells (with layers) occupied by a path of search states. -/
def cellsOf (l : List RState) : List (Pt × Nat) :=
  l.map fun σ => (σ.pt, σ.layer)

/-- Commit a routed path into Board Grid occupancy, layer by layer, via
`reserve` (spec §4.4: "commits the path into Board Grid occupancy (via
`reserve`)"). -/
def Grid.commitPath (g : Grid) (cells : List (Pt × Nat)) (net : String) : Grid :=
  (List.range g.layers).foldl
    (fun h l => h.reserve ((cells.filter (fun e => e.2 = l)).map (·.1)) l net) g

/-!
### Order on optional costs

`none` plays the role of an infinite (unreachable) distance.
-/

/-- Ordering `oLe a b`: the distance `a` is at most `b` (`none` = +∞). -/
def oLe : Option Cost → Option Cost → Prop
  | _, none => True
  | none, some _ => False
  | some x, some y => x.toReal ≤ y.toReal

theorem oLe_refl (a : Option Cost) : oLe a a := by
  cases a with
  | none => trivial
  | some x => exact le_refl _

theorem oLe_none (a : Option Cost) : oLe a none := by
  cases a with
  | none => trivial
  | some x => trivial

theorem oLe_trans {a b c : Option Cost} (h1 : oLe a b) (h2 : oLe b c) : oLe a c := by
  cases c with
  | none => exact oLe_none a
  | some z =>
    cases b with
    | none => exact h2.elim
    | some y =>
      cases a with
      | none => exact h1.elim
      | some x => exact le_trans h1 h2

theorem oLe_some_right {a : Option Cost} {y : Cost} (h : oLe a (some y)) :
    ∃ x, a = some x ∧ x.toReal ≤ y.toReal := by
  cases a with
  | none => exact absurd h (by simp [oLe])
  | some x => exact ⟨x, rfl, h⟩

theorem optMin_le_left (a b : Option Cost) : oLe (optMin a b) a := by
  cases a with
  | none =>
    cases b with
    | none => trivial
    | some y => trivial
  | some x =>
    cases b with
    | none => exact le_refl _
    | some y =>
      simp only [optMin]
      by_cases h : Cost.leB x y
      · simp only [h, if_true]
        exact le_refl _
      · simp only [h, if_false]
        have := (Cost.leB_iff y x).mp ?_
        · exact this
        · have htot : x.toReal ≤ y.toReal ∨ y.toReal ≤ x.toReal := le_total _ _
          rcases htot with h1 | h1
          · exact absurd ((Cost.leB_iff x y).mpr h1) h
          · exact (Cost.leB_iff y x).mpr h1

theorem optMin_le_right (a b : Option Cost) : oLe (optMin a b) b := by
  cases a with
  | none => exact oLe_refl b
  | some x =>
    cases b with
    | none => trivial
    | some y =>
      simp only [optMin]
      by_cases h : Cost.leB x y
      · simp only [h, if_true]
        exact (Cost.leB_iff x y).mp h
      · simp only [h, if_false]
        exact le_refl _

theorem optMin_eq_or (a b : Option Cost) : optMin a b = a ∨ optMin a b = b := by
  cases a with
  | none => right; rfl
  | some x =>
    cases b with
    | none => left; rfl
    | some y =>
      simp only [optMin]
      by_cases h : Cost.leB x y
      · left; simp [h]
      · right; simp [h]

theorem optMin_isSome_left {a : Option Cost} (b : Option Cost) (h : a.isSome) :
    (optMin a b).isSome := by
  cases a with
  | none => simp at h
  | some x =>
    cases b with
    | none => rfl
    | some y =>
      simp only [optMin]
      by_cases hb : Cost.leB x y <;> simp [hb]

/-!
### Relaxation-fold lemmas
-/

theorem foldl_optMin_le_init (f : RState → Option Cost) (l : List RState) :
    ∀ acc : Option Cost, oLe (l.foldl (fun a σ => optMin a (f σ)) acc) acc := by
  induction l with
  | nil => intro acc; exact oLe_refl acc
  | cons σ rest ih =>
    intro acc
    simp only [List.foldl_cons]
    exact oLe_trans (ih (optMin acc (f σ))) (optMin_le_left acc (f σ))

theorem foldl_optMin_le_mem (f : RState → Option Cost) (l : List RState) :
    ∀ acc : Option Cost, ∀ σ ∈ l, oLe (l.foldl (fun a σ => optMin a (f σ)) acc) (f σ) := by
  induction l with
  | nil => intro acc σ hσ; simp at hσ
  | cons σ₀ rest ih =>
    intro acc σ hσ
    simp only [List.foldl_cons]
    rcases List.mem_cons.mp hσ with rfl | hmem
    · exact oLe_trans (foldl_optMin_le_init f rest (optMin acc (f σ)))
        (optMin_le_right acc (f σ))
    · exact ih (optMin acc (f σ₀)) σ hmem

theorem foldl_optMin_cases (f : RState → Option Cost) (l : List RState) :
    ∀ acc : Option Cost, l.foldl (fun a σ => optMin a (f σ)) acc = acc ∨
      ∃ σ ∈ l, l.foldl (fun a σ => optMin a (f σ)) acc = f σ := by
  induction l with
  | nil => intro acc; left; rfl
  | cons σ₀ rest ih =>
    intro acc
    simp only [List.foldl_cons]
    rcases ih (optMin acc (f σ₀)) with h | ⟨σ, hσ, h⟩
    · rcases optMin_eq_or acc (f σ₀) with h2 | h2
      · left; rw [h, h2]
      · right; exact ⟨σ₀, List.mem_cons_self _ _, by rw [h, h2]⟩
    · right; exact ⟨σ, List.mem_cons_of_mem _ hσ, h⟩

theorem foldl_optMin_isSome (f : RState → Option Cost) (l : List RState) :
    ∀ acc : Option Cost, acc.isSome →
      (l.foldl (fun a σ => optMin a (f σ)) acc).isSome := by
  induction l with
  | nil => intro acc h; exact h
  | cons σ₀ rest ih =>
    intro acc h
    simp only [List.foldl_cons]
    exact ih _ (optMin_isSome_left (f σ₀) h)

theorem newVal_le_old (g : Grid) (net : String) (vc tc : Nat) (d : Dist) (τ : RState) :
    oLe (newVal g net vc tc d τ) (lookupD d τ) :=
  foldl_optMin_le_init _ _ _

theorem newVal_le_cand (g : Grid) (net : String) (vc tc : Nat) (d : Dist) (τ σ : RState)
    (hσ : σ ∈ allStates g) :
    oLe (newVal g net vc tc d τ) (candCost g net vc tc d τ σ) :=
  foldl_optMin_le_mem _ _ _ σ hσ

theorem newVal_cases (g : Grid) (net : String) (vc tc : Nat) (d : Dist) (τ : RState) :
    newVal g net vc tc d τ = lookupD d τ ∨
      ∃ σ ∈ allStates g, newVal g net vc tc d τ = candCost g net vc tc d τ σ :=
  foldl_optMin_cases _ _ _

/-!
### Lookup after a relaxation round
-/

theorem mem_relaxRound {g : Grid} {net : String} {vc tc : Nat} {d : Dist}
    {e : RState × Cost} (h : e ∈ relaxRound g net vc tc d) :
    e.1 ∈ allStates g ∧ newVal g net vc tc d e.1 = some e.2 := by
  simp only [relaxRound, List.mem_filterMap] at h
  obtain ⟨τ, hτ, hmap⟩ := h
  obtain ⟨c, hval, hec⟩ := Option.map_eq_some'.mp hmap
  cases hec
  exact ⟨hτ, hval⟩

theorem lookupD_relaxRound (g : Grid) (net : String) (vc tc : Nat) (d : Dist)
    (τ : RState) (hτ : τ ∈ allStates g) :
    lookupD (relaxRound g net vc tc d) τ = newVal g net vc tc d τ := by
  cases hval : newVal g net vc tc d τ with
  | some c =>
    have hmem : (τ, c) ∈ relaxRound g net vc tc d := by
      simp only [relaxRound, List.mem_filterMap]
      exact ⟨τ, hτ, by rw [hval]; rfl⟩
    have hfind : (List.find? (fun e => decide (e.1 = τ)) (relaxRound g net vc tc d)).isSome := by
      rw [List.find?_isSome]
      exact ⟨(τ, c), hmem, by simp⟩
    cases hf : List.find? (fun e => decide (e.1 = τ)) (relaxRound g net vc tc d) with
    | none => rw [hf] at hfind; simp at hfind
    | some e =>
      have he := List.find?_some hf
      simp only [decide_eq_true_eq] at he
      have hemem := List.mem_of_find?_eq_some hf
      have := (mem_relaxRound hemem).2
      rw [he, hval] at this
      simp only [Option.some.injEq] at this
      simp only [lookupD, hf, this]
  | none =>
    have hnone : List.find? (fun e => decide (e.1 = τ)) (relaxRound g net vc tc d) = none := by
      rw [List.find?_eq_none]
      intro e hmem hpred
      simp only [decide_eq_true_eq] at hpred
      have := (mem_relaxRound hmem).2
      rw [hpred, hval] at this
      simp at this
    simp only [lookupD, hnone]

/-!
### Fixed-point extraction from `solveDist`
-/

theorem solveDist_fix (g : Grid) (net : String) (vc tc : Nat) :
    ∀ fuel d df, solveDist g net vc tc fuel d = some df →
      relaxRound g net vc tc df = df := by
  intro fuel
  induction fuel with
  | zero => intro d df h; simp [solveDist] at h
  | succ k ih =>
    intro d df h
    simp only [solveDist] at h
    by_cases hfix : relaxRound g net vc tc d = d
    · rw [if_pos hfix] at h
      cases h
      exact hfix
    · rw [if_neg hfix] at h
      exact ih _ _ h

theorem solveDist_inv (g : Grid) (net : String) (vc tc : Nat) (P : Dist → Prop)
    (hP : ∀ d, P d → P (relaxRound g net vc tc d)) :
    ∀ fuel d df, solveDist g net vc tc fuel d = some df → P d → P df := by
  intro fuel
  induction fuel with
  | zero => intro d df h; simp [solveDist] at h
  | succ k ih =>
    intro d df h hd
    simp only [solveDist] at h
    by_cases hfix : relaxRound g net vc tc d = d
    · rw [if_pos hfix] at h
      cases h
      exact hd
    · rw [if_neg hfix] at h
      exact ih _ _ h (hP d hd)

/-!
### Cost algebra and chain-cost lemmas
-/

theorem Cost.add_zero (a : Cost) : a.add ⟨0, 0⟩ = a := by
  simp [Cost.add]

theorem Cost.zero_add (a : Cost) : Cost.add ⟨0, 0⟩ a = a := by
  simp [Cost.add]

theorem Cost.add_assoc (a b c : Cost) : (a.add b).add c = a.add (b.add c) := by
  simp [Cost.add, Nat.add_assoc]

/-- Appending one more state to a chain adds the final edge cost. -/
theorem tailCost_snoc (g : Grid) (net : String) (vc tc : Nat) :
    ∀ (rest : List RState) (σ₀ last τ : RState) (a e : Cost),
      tailCost g net vc tc σ₀ rest = some a →
      (σ₀ :: rest).getLast? = some last →
      edgeCost g net vc tc last τ = some e →
      tailCost g net vc tc σ₀ (rest ++ [τ]) = some (a.add e) := by
  intro rest
  induction rest with
  | nil =>
    intro σ₀ last τ a e ha hlast he
    simp only [tailCost] at ha
    cases ha
    simp only [List.getLast?_singleton, Option.some.injEq] at hlast
    cases hlast
    simp only [List.nil_append, tailCost, he, Cost.add_zero, Cost.zero_add]
  | cons σ₁ rest ih =>
    intro σ₀ last τ a e ha hlast he
    simp only [tailCost] at ha
    cases h1 : edgeCost g net vc tc σ₀ σ₁ with
    | none => rw [h1] at ha; simp at ha
    | some e1 =>
      rw [h1] at ha
      cases h2 : tailCost g net vc tc σ₁ rest with
      | none => rw [h2] at ha; simp at ha
      | some c2 =>
        rw [h2] at ha
        simp only [Option.some.injEq] at ha
        have hlast' : (σ₁ :: rest).getLast? = some last := by
          rwa [List.getLast?_cons_cons] at hlast
        have hrec := ih σ₁ last τ c2 e h2 hlast' he
        have hfinal : tailCost g net vc tc σ₀ ((σ₁ :: rest) ++ [τ]) =
            match edgeCost g net vc tc σ₀ σ₁, tailCost g net vc tc σ₁ (rest ++ [τ]) with
            | some e, some c => some (e.add c)
            | _, _ => none := rfl
        rw [hfinal, h1, hrec, ← ha, Cost.add_assoc]

/-!
### Search-state membership and edge facts
-/

theorem mem_allStates (g : Grid) (τ : RState) :
    τ ∈ allStates g ↔
      τ.x < g.width ∧ τ.y < g.height ∧ τ.layer < g.layers ∧ τ.dir < 9 := by
  cases τ with
  | mk x y l d =>
    simp only [allStates, List.mem_flatMap, List.mem_map, List.mem_range]
    constructor
    · rintro ⟨x', hx, y', hy, l', hl, d', hd, heq⟩
      cases heq
      exact ⟨hx, hy, hl, hd⟩
    · rintro ⟨hx, hy, hl, hd⟩
      exact ⟨x, hx, y, hy, l, hl, d, hd, rfl⟩

theorem trav_bounds {g : Grid} {p : Pt} {layer : Nat} {net : String}
    (h : g.is_traversable p layer net = true) :
    p.x < g.width ∧ p.y < g.height ∧ layer < g.layers := by
  simp only [Grid.is_traversable, Grid.inBounds, Bool.and_eq_true,
    decide_eq_true_eq] at h
  exact ⟨h.1.1.1.1, h.1.1.1.2, h.1.1.2⟩

theorem edge_target_trav {g : Grid} {net : String} {vc tc : Nat} {σ τ : RState}
    {e : Cost} (h : edgeCost g net vc tc σ τ = some e) :
    g.is_traversable τ.pt τ.layer net = true := by
  simp only [edgeCost] at h
  by_cases hlay : τ.layer = σ.layer
  · rw [if_pos hlay] at h
    cases hstep : stepPt σ.pt τ.dir with
    | none => rw [hstep] at h; simp at h
    | some p =>
      rw [hstep] at h
      by_cases hc : τ.x = p.x ∧ τ.y = p.y ∧ τ.dir < 8 ∧ g.is_traversable p σ.layer net
      · have : τ.pt = p := by
          cases p with
          | mk px py => simp only [RState.pt, hc.1, hc.2.1]
        rw [this, hlay]
        exact hc.2.2.2
      · have h' : (if τ.x = p.x ∧ τ.y = p.y ∧ τ.dir < 8 ∧
            g.is_traversable p σ.layer net = true then
            some ((if isDiag τ.dir = true then Cost.mk 0 g.pitch
              else Cost.mk g.pitch 0).add
              (if σ.dir ≠ 8 ∧ σ.dir ≠ τ.dir then Cost.mk tc 0 else Cost.mk 0 0))
            else none) = some e := h
        rw [if_neg hc] at h'
        simp at h'
  · rw [if_neg hlay] at h
    by_cases hc : (τ.layer = σ.layer + 1 ∨ τ.layer + 1 = σ.layer) ∧
        τ.x = σ.x ∧ τ.y = σ.y ∧ τ.dir = σ.dir
    · rw [if_pos hc] at h
      by_cases ht : g.is_traversable τ.pt τ.layer net
      · exact ht
      · rw [if_neg ht] at h; simp at h
    · rw [if_neg hc] at h
      simp at h

theorem edge_target_mem {g : Grid} {net : String} {vc tc : Nat} {σ τ : RState}
    {e : Cost} (hσ : σ ∈ allStates g) (h : edgeCost g net vc tc σ τ = some e) :
    τ ∈ allStates g := by
  have htrav := edge_target_trav h
  have hb := trav_bounds htrav
  rw [mem_allStates]
  refine ⟨hb.1, hb.2.1, hb.2.2, ?_⟩
  simp only [edgeCost] at h
  by_cases hlay : τ.layer = σ.layer
  · rw [if_pos hlay] at h
    cases hstep : stepPt σ.pt τ.dir with
    | none => rw [hstep] at h; simp at h
    | some p =>
      rw [hstep] at h
      by_cases hc : τ.x = p.x ∧ τ.y = p.y ∧ τ.dir < 8 ∧ g.is_traversable p σ.layer net
      · exact Nat.lt_trans hc.2.2.1 (by norm_num)
      · have h' : (if τ.x = p.x ∧ τ.y = p.y ∧ τ.dir < 8 ∧
            g.is_traversable p σ.layer net = true then
            some ((if isDiag τ.dir = true then Cost.mk 0 g.pitch
              else Cost.mk g.pitch 0).add
              (if σ.dir ≠ 8 ∧ σ.dir ≠ τ.dir then Cost.mk tc 0 else Cost.mk 0 0))
            else none) = some e := h
        rw [if_neg hc] at h'
        simp at h'
  · rw [if_neg hlay] at h
    by_cases hc : (τ.layer = σ.layer + 1 ∨ τ.layer + 1 = σ.layer) ∧
        τ.x = σ.x ∧ τ.y = σ.y ∧ τ.dir = σ.dir
    · rw [hc.2.2.2]
      exact ((mem_allStates g σ).mp hσ).2.2.2
    · rw [if_neg hc] at h
      simp at h

/-- The spec's cost model, read off any existing search edge: a planar move
costs the cell pitch (times √2 when diagonal) plus the fixed turn penalty
when the direction changes; a layer change costs the via penalty. -/
theorem edgeCost_real (g : Grid) (net : String) (vc tc : Nat) (σ τ : RState)
    (e : Cost) (h : edgeCost g net vc tc σ τ = some e) :
    e.toReal = if τ.layer = σ.layer then
        ((if isDiag τ.dir then (g.pitch : ℝ) * Real.sqrt 2 else (g.pitch : ℝ)) +
          (if σ.dir ≠ 8 ∧ σ.dir ≠ τ.dir then (tc : ℝ) else 0))
      else (vc : ℝ) := by
  simp only [edgeCost] at h
  by_cases hlay : τ.layer = σ.layer
  · rw [if_pos hlay] at h
    rw [if_pos hlay]
    cases hstep : stepPt σ.pt τ.dir with
    | none => rw [hstep] at h; simp at h
    | some p =>
      rw [hstep] at h
      by_cases hc : τ.x = p.x ∧ τ.y = p.y ∧ τ.dir < 8 ∧ g.is_traversable p σ.layer net
      · have h' : (if τ.x = p.x ∧ τ.y = p.y ∧ τ.dir < 8 ∧
            g.is_traversable p σ.layer net = true then
            some ((if isDiag τ.dir = true then Cost.mk 0 g.pitch
              else Cost.mk g.pitch 0).add
              (if σ.dir ≠ 8 ∧ σ.dir ≠ τ.dir then Cost.mk tc 0 else Cost.mk 0 0))
            else none) = some e := h
        rw [if_pos hc] at h'
        have he := Option.some.inj h'
        rw [← he]
        by_cases hd : isDiag τ.dir = true <;>
          by_cases htn : σ.dir ≠ 8 ∧ σ.dir ≠ τ.dir <;>
            simp [hd, htn, Cost.add, Cost.toReal] <;> push_cast <;> ring
      · have h' : (if τ.x = p.x ∧ τ.y = p.y ∧ τ.dir < 8 ∧
            g.is_traversable p σ.layer net = true then
            some ((if isDiag τ.dir = true then Cost.mk 0 g.pitch
              else Cost.mk g.pitch 0).add
              (if σ.dir ≠ 8 ∧ σ.dir ≠ τ.dir then Cost.mk tc 0 else Cost.mk 0 0))
            else none) = some e := h
        rw [if_neg hc] at h'
        simp at h'
  · rw [if_neg hlay] at h
    rw [if_neg hlay]
    by_cases hc : (τ.layer = σ.layer + 1 ∨ τ.layer + 1 = σ.layer) ∧
        τ.x = σ.x ∧ τ.y = σ.y ∧ τ.dir = σ.dir
    · rw [if_pos hc] at h
      by_cases ht : g.is_traversable τ.pt τ.layer net
      · rw [if_pos ht] at h
        have he := Option.some.inj h
        rw [← he]
        simp [Cost.toReal]
      · rw [if_neg ht] at h; simp at h
    · rw [if_neg hc] at h
      simp at h

/-- Every state reached along a chain of search edges is traversable and a
member of the state space. -/
theorem chain_tail_facts (g : Grid) (net : String) (vc tc : Nat) :
    ∀ (rest : List RState) (σ₀ : RState) (c : Cost),
      σ₀ ∈ allStates g →
      tailCost g net vc tc σ₀ rest = some c →
      ∀ τ ∈ rest, τ ∈ allStates g ∧ g.is_traversable τ.pt τ.layer net = true := by
  intro rest
  induction rest with
  | nil => intro σ₀ c hσ hc τ hτ; simp at hτ
  | cons σ₁ rest ih =>
    intro σ₀ c hσ hc τ hτ
    simp only [tailCost] at hc
    cases h1 : edgeCost g net vc tc σ₀ σ₁ with
    | none => rw [h1] at hc; simp at hc
    | some e1 =>
      rw [h1] at hc
      cases h2 : tailCost g net vc tc σ₁ rest with
      | none => rw [h2] at hc; simp at hc
      | some c2 =>
        have hmem1 : σ₁ ∈ allStates g := edge_target_mem hσ h1
        rcases List.mem_cons.mp hτ with rfl | hmem
        · exact ⟨hmem1, edge_target_trav h1⟩
        · exact ih σ₁ c2 hmem1 h2 τ hmem

/-!
### Soundness and optimality invariants of the relaxation
-/

/-- Every settled entry is a member of the state space and realisable by an
actual chain of search edges from `start`. -/
def Sound (g : Grid) (net : String) (vc tc : Nat) (start : RState) (d : Dist) : Prop :=
  ∀ τ c, lookupD d τ = some c → τ ∈ allStates g ∧
    ∃ rest, tailCost g net vc tc start rest = some c ∧
      (start :: rest).getLast? = some τ

/-- The start state stays settled with a nonpositive (hence zero) value. -/
def StartInv (start : RState) (d : Dist) : Prop :=
  ∃ c₀, lookupD d start = some c₀ ∧ c₀.toReal ≤ 0

theorem Sound_relaxRound (g : Grid) (net : String) (vc tc : Nat) (start : RState)
    (d : Dist) (hd : Sound g net vc tc start d) :
    Sound g net vc tc start (relaxRound g net vc tc d) := by
  intro τ c hlook
  have hfind : (List.find? (fun e => decide (e.1 = τ)) (relaxRound g net vc tc d)).isSome := by
    simp only [lookupD] at hlook
    cases hf : List.find? (fun e => decide (e.1 = τ)) (relaxRound g net vc tc d) with
    | none => rw [hf] at hlook; simp at hlook
    | some e => rfl
  cases hf : List.find? (fun e => decide (e.1 = τ)) (relaxRound g net vc tc d) with
  | none => rw [hf] at hfind; simp at hfind
  | some e =>
    have he := List.find?_some hf
    simp only [decide_eq_true_eq] at he
    have hemem := List.mem_of_find?_eq_some hf
    obtain ⟨hmem, hval⟩ := mem_relaxRound hemem
    simp only [lookupD, hf, Option.some.injEq] at hlook
    rw [he] at hmem hval
    subst hlook
    refine ⟨hmem, ?_⟩
    rcases newVal_cases g net vc tc d τ with hcase | ⟨σ, hσ, hcase⟩
    · rw [hcase] at hval
      exact (hd τ e.2 hval).2
    · rw [hcase] at hval
      simp only [candCost] at hval
      cases hlookσ : lookupD d σ with
      | none => rw [hlookσ] at hval; simp at hval
      | some cσ =>
        rw [hlookσ] at hval
        cases hedge : edgeCost g net vc tc σ τ with
        | none => rw [hedge] at hval; simp at hval
        | some ec =>
          rw [hedge] at hval
          simp only [Option.some.injEq] at hval
          obtain ⟨rest, hcost, hlast⟩ := (hd σ cσ hlookσ).2
          refine ⟨rest ++ [τ], ?_, ?_⟩
          · rw [tailCost_snoc g net vc tc rest start σ τ cσ ec hcost hlast hedge, hval]
          · have : start :: (rest ++ [τ]) = (start :: rest) ++ [τ] := by simp
            rw [this, List.getLast?_concat]

theorem StartInv_relaxRound (g : Grid) (net : String) (vc tc : Nat) (start : RState)
    (hmem : start ∈ allStates g) (d : Dist) (hd : StartInv start d) :
    StartInv start (relaxRound g net vc tc d) := by
  obtain ⟨c₀, hlook, hle⟩ := hd
  have hrw := lookupD_relaxRound g net vc tc d start hmem
  have hsome : (newVal g net vc tc d start).isSome := by
    apply foldl_optMin_isSome
    rw [hlook]
    rfl
  cases hval : newVal g net vc tc d start with
  | none => rw [hval] at hsome; simp at hsome
  | some c₁ =>
    have hle1 : oLe (some c₁) (some c₀) := by
      rw [← hval, ← hlook]
      exact newVal_le_old g net vc tc d start
    refine ⟨c₁, by rw [hrw, hval], le_trans hle1 hle⟩

/-- At a fixed point of the relaxation, the settled distances are lower
bounds on the cost of every chain of search edges: following any chain
from a settled state, the endpoint is settled with a value at most the
start value plus the chain cost. -/
theorem fix_lower_bound (g : Grid) (net : String) (vc tc : Nat) (df : Dist)
    (hfix : relaxRound g net vc tc df = df) :
    ∀ (rest : List RState) (σ : RState) (cσ c₂ : Cost),
      σ ∈ allStates g → lookupD df σ = some cσ →
      tailCost g net vc tc σ rest = some c₂ →
      ∃ τl cl, (σ :: rest).getLast? = some τl ∧ lookupD df τl = some cl ∧
        cl.toReal ≤ cσ.toReal + c₂.toReal := by
  intro rest
  induction rest with
  | nil =>
    intro σ cσ c₂ hσ hlook hcost
    simp only [tailCost, Option.some.injEq] at hcost
    refine ⟨σ, cσ, by simp, hlook, ?_⟩
    rw [← hcost]
    simp only [Cost.toReal]
    push_cast
    simp
  | cons τ rest ih =>
    intro σ cσ c₂ hσ hlook hcost
    simp only [tailCost] at hcost
    cases hedge : edgeCost g net vc tc σ τ with
    | none => rw [hedge] at hcost; simp at hcost
    | some e =>
      rw [hedge] at hcost
      cases htc : tailCost g net vc tc τ rest with
      | none => rw [htc] at hcost; simp at hcost
      | some c₂' =>
        rw [htc] at hcost
        simp only [Option.some.injEq] at hcost
        have hτ : τ ∈ allStates g := edge_target_mem hσ hedge
        have hlookτ : lookupD df τ = newVal g net vc tc df τ := by
          conv_lhs => rw [← hfix]
          exact lookupD_relaxRound g net vc tc df τ hτ
        have hcand : candCost g net vc tc df τ σ = some (cσ.add e) := by
          simp only [candCost, hlook, hedge]
        have hle : oLe (newVal g net vc tc df τ) (some (cσ.add e)) := by
          rw [← hcand]
          exact newVal_le_cand g net vc tc df τ σ hσ
        obtain ⟨cτ, hcτ, hcτle⟩ := oLe_some_right hle
        rw [Cost.toReal_add] at hcτle
        obtain ⟨τl, cl, hlast, hlookl, hlle⟩ := ih τ cτ c₂' hτ (by rw [hlookτ, hcτ]) htc
        refine ⟨τl, cl, ?_, hlookl, ?_⟩
        · rwa [List.getLast?_cons_cons]
        · rw [← hcost, Cost.toReal_add]
          linarith

/-!
### Path-reconstruction and target-selection specifications
-/

theorem backtrack_spec (g : Grid) (net : String) (vc tc : Nat) (df : Dist)
    (start : RState) (hstart : lookupD df start = some ⟨0, 0⟩) :
    ∀ fuel τ l, backtrack g net vc tc df start fuel τ = some l →
      l.head? = some start ∧ l.getLast? = some τ ∧
      ∃ c, chainCost g net vc tc l = some c ∧ lookupD df τ = some c := by
  intro fuel
  induction fuel with
  | zero => intro τ l h; simp [backtrack] at h
  | succ k ih =>
    intro τ l h
    simp only [backtrack] at h
    by_cases hτ : τ = start
    · rw [if_pos hτ] at h
      simp only [Option.some.injEq] at h
      subst h
      subst hτ
      refine ⟨rfl, rfl, ⟨0, 0⟩, rfl, hstart⟩
    · rw [if_neg hτ] at h
      cases hlook : lookupD df τ with
      | none =>
        simp only [hlook] at h
        exact Option.noConfusion h
      | some cτ =>
        simp only [hlook] at h
        cases hfind : List.find? (predOK g net vc tc df τ cτ) (allStates g) with
        | none =>
          simp only [hfind] at h
          exact Option.noConfusion h
        | some σ =>
          simp only [hfind] at h
          obtain ⟨l', hbt, hl⟩ := Option.map_eq_some'.mp h
          subst hl
          obtain ⟨hhead, hlast, c', hcc, hlookσ⟩ := ih σ l' hbt
          have hp := List.find?_some hfind
          rw [predOK, hlookσ] at hp
          cases hedge : edgeCost g net vc tc σ τ with
          | none =>
            rw [hedge] at hp
            exact absurd hp (by simp)
          | some e =>
            rw [hedge] at hp
            have hadd : c'.add e = cτ := of_decide_eq_true hp
            cases l' with
            | nil => simp at hhead
            | cons a t =>
              simp only [List.head?_cons, Option.some.injEq] at hhead
              refine ⟨by simp [hhead], by rw [List.getLast?_concat], cτ, ?_, rfl⟩
              have hca : (a :: t) ++ [τ] = a :: (t ++ [τ]) := by simp
              rw [hca]
              simp only [chainCost] at hcc ⊢
              rw [tailCost_snoc g net vc tc t a σ τ c' e hcc hlast hedge, hadd]

/-- The selected target entry is settled, sits at the target cell/layer, and
its value is `leB`-least among the settled direction-states of the target. -/
def BTShape (df : Dist) (t : EndPt) (acc : Option (RState × Cost)) : Prop :=
  ∀ pr : RState × Cost, acc = some pr →
    lookupD df pr.1 = some pr.2 ∧ ∃ d, d < 9 ∧ pr.1 = ⟨t.pt.x, t.pt.y, t.layer, d⟩

def btCost (acc : Option (RState × Cost)) : Option Cost := acc.map Prod.snd

theorem btStep_shape (df : Dist) (t : EndPt) (acc : Option (RState × Cost))
    (d : Nat) (hd : d < 9) (hacc : BTShape df t acc) :
    BTShape df t (btStep df t acc d) := by
  intro pr hpr
  cases hlook : lookupD df ⟨t.pt.x, t.pt.y, t.layer, d⟩ with
  | none =>
    simp only [btStep, hlook] at hpr
    cases acc with
    | none => simp at hpr
    | some pr₀ => exact hacc pr hpr
  | some c =>
    cases acc with
    | none =>
      simp only [btStep, hlook] at hpr
      simp only [Option.some.injEq] at hpr
      subst hpr
      exact ⟨hlook, d, hd, rfl⟩
    | some pr₀ =>
      simp only [btStep, hlook] at hpr
      by_cases hle : Cost.leB pr₀.2 c
      · rw [if_pos hle] at hpr
        simp only [Option.some.injEq] at hpr
        subst hpr
        exact hacc pr₀ rfl
      · rw [if_neg hle] at hpr
        simp only [Option.some.injEq] at hpr
        subst hpr
        exact ⟨hlook, d, hd, rfl⟩

theorem btStep_le_acc (df : Dist) (t : EndPt) (acc : Option (RState × Cost))
    (d : Nat) : oLe (btCost (btStep df t acc d)) (btCost acc) := by
  cases hlook : lookupD df ⟨t.pt.x, t.pt.y, t.layer, d⟩ with
  | none =>
    simp only [btStep, hlook]
    exact oLe_refl _
  | some c =>
    cases acc with
    | none =>
      simp only [btStep, hlook, btCost]
      trivial
    | some pr₀ =>
      simp only [btStep, hlook]
      by_cases hle : Cost.leB pr₀.2 c
      · rw [if_pos hle]
        exact oLe_refl _
      · rw [if_neg hle]
        simp only [btCost, Option.map_some]
        have htot : pr₀.2.toReal ≤ c.toReal ∨ c.toReal ≤ pr₀.2.toReal := le_total _ _
        rcases htot with h1 | h1
        · exact absurd ((Cost.leB_iff _ _).mpr h1) hle
        · exact h1

theorem btStep_le_look (df : Dist) (t : EndPt) (acc : Option (RState × Cost))
    (d : Nat) :
    oLe (btCost (btStep df t acc d)) (lookupD df ⟨t.pt.x, t.pt.y, t.layer, d⟩) := by
  cases hlook : lookupD df ⟨t.pt.x, t.pt.y, t.layer, d⟩ with
  | none =>
    simp only [btStep, hlook]
    exact oLe_none _
  | some c =>
    cases acc with
    | none =>
      simp only [btStep, hlook, btCost, Option.map_some]
      exact oLe_refl _
    | some pr₀ =>
      simp only [btStep, hlook]
      by_cases hle : Cost.leB pr₀.2 c
      · rw [if_pos hle]
        simp only [btCost, Option.map_some]
        exact (Cost.leB_iff _ _).mp hle
      · rw [if_neg hle]
        simp only [btCost, Option.map_some]
        exact oLe_refl (some c)

theorem bt_fold_shape (df : Dist) (t : EndPt) :
    ∀ (ds : List Nat), (∀ d ∈ ds, d < 9) → ∀ acc, BTShape df t acc →
      BTShape df t (ds.foldl (btStep df t) acc) := by
  intro ds
  induction ds with
  | nil => intro _ acc hacc; exact hacc
  | cons d rest ih =>
    intro hds acc hacc
    simp only [List.foldl_cons]
    exact ih (fun x hx => hds x (List.mem_cons_of_mem _ hx)) _
      (btStep_shape df t acc d (hds d (List.mem_cons_self _ _)) hacc)

theorem bt_fold_le_acc (df : Dist) (t : EndPt) :
    ∀ (ds : List Nat) (acc : Option (RState × Cost)),
      oLe (btCost (ds.foldl (btStep df t) acc)) (btCost acc) := by
  intro ds
  induction ds with
  | nil => intro acc; exact oLe_refl _
  | cons d rest ih =>
    intro acc
    simp only [List.foldl_cons]
    exact oLe_trans (ih _) (btStep_le_acc df t acc d)

theorem bt_fold_le_look (df : Dist) (t : EndPt) :
    ∀ (ds : List Nat) (acc : Option (RState × Cost)) (d : Nat), d ∈ ds →
      oLe (btCost (ds.foldl (btStep df t) acc))
        (lookupD df ⟨t.pt.x, t.pt.y, t.layer, d⟩) := by
  intro ds
  induction ds with
  | nil => intro acc d hd; simp at hd
  | cons d₀ rest ih =>
    intro acc d hd
    simp only [List.foldl_cons]
    rcases List.mem_cons.mp hd with rfl | hmem
    · exact oLe_trans (bt_fold_le_acc df t rest _) (btStep_le_look df t acc d)
    · exact ih _ d hmem

theorem bestTarget_spec (df : Dist) (t : EndPt) (τ : RState) (c : Cost)
    (h : bestTarget df t = some (τ, c)) :
    lookupD df τ = some c ∧
    (∃ d, d < 9 ∧ τ = ⟨t.pt.x, t.pt.y, t.layer, d⟩) ∧
    ∀ d, d < 9 → oLe (some c) (lookupD df ⟨t.pt.x, t.pt.y, t.layer, d⟩) := by
  have hshape := bt_fold_shape df t (List.range 9)
    (fun d hd => List.mem_range.mp hd) none (fun pr hpr => by simp at hpr)
  rw [bestTarget] at h
  obtain ⟨hlook, hd⟩ := hshape (τ, c) h
  refine ⟨hlook, hd, ?_⟩
  intro d hd9
  have := bt_fold_le_look df t (List.range 9) none d (List.mem_range.mpr hd9)
  rw [h] at this
  exact this

/-!
### The Path Router specification
-/

theorem getLast?_mem_of_eq {α : Type} {l : List α} {a : α}
    (h : l.getLast? = some a) : a ∈ l := by
  obtain ⟨hne, rfl⟩ := List.mem_getLast?_eq_getLast (Option.mem_def.mpr h)
  exact List.getLast_mem hne

theorem lookupD_single (σ₀ τ : RState) (c₀ : Cost) :
    lookupD [(σ₀, c₀)] τ = if τ = σ₀ then some c₀ else none := by
  by_cases h : τ = σ₀
  · subst h
    simp [lookupD, List.find?]
  · simp only [lookupD, List.find?]
    have : (decide ((σ₀, c₀).1 = τ)) = false := by
      simp only [decide_eq_false_iff_not]
      exact fun hc => h hc.symm
    rw [this]
    simp [h]

theorem toReal_zero : Cost.toReal ⟨0, 0⟩ = 0 := by
  simp [Cost.toReal]

/-- An exhausted search budget yields the same `none` result as an ordinary
path-search failure, so it flows through the same recovery path. -/
theorem findPath_zero_fuel (g : Grid) (net : String) (vc tc : Nat)
    (s t : EndPt) : findPath g net vc tc 0 s t = none := by
  rw [findPath]
  split
  · rfl
  · rfl

/-- The Path Router returns only valid chains, of minimal real cost among
all valid chains, consisting solely of cells traversable for the net. -/
theorem findPath_spec (g : Grid) (net : String) (vc tc fuel : Nat) (s t : EndPt)
    (pr : PathResult) (h : findPath g net vc tc fuel s t = some pr) :
    ValidChain g net vc tc s t pr.path pr.cost ∧
    (∀ l₂ c₂, ValidChain g net vc tc s t l₂ c₂ → pr.cost.toReal ≤ c₂.toReal) ∧
    (∀ σ ∈ pr.path, g.is_traversable σ.pt σ.layer net = true) := by
  rw [findPath] at h
  by_cases hcond : (g.is_traversable s.pt s.layer net &&
      g.is_traversable t.pt t.layer net) = true
  · rw [if_pos hcond] at h
    obtain ⟨hstrav, httrav⟩ := Bool.and_eq_true_iff.mp hcond
    cases hsolve : solveDist g net vc tc fuel [(startSt s, ⟨0, 0⟩)] with
    | none =>
      simp only [hsolve] at h
      exact Option.noConfusion h
    | some df =>
      simp only [hsolve] at h
      cases hbt : bestTarget df t with
      | none =>
        simp only [hbt] at h
        exact Option.noConfusion h
      | some prc =>
        simp only [hbt] at h
        cases hback : backtrack g net vc tc df (startSt s)
            (g.width * g.height * g.layers * 9 + 1) prc.1 with
        | none =>
          simp only [hback] at h
          exact Option.noConfusion h
        | some l =>
          simp only [hback, Option.some.injEq] at h
          subst h
          -- Invariants of the solved distance table
          have hsb := trav_bounds hstrav
          have hsmem : startSt s ∈ allStates g := by
            rw [mem_allStates]
            exact ⟨hsb.1, hsb.2.1, hsb.2.2, by simp [startSt]⟩
          have hSound0 : Sound g net vc tc (startSt s) [(startSt s, ⟨0, 0⟩)] := by
            intro τ c hlook
            rw [lookupD_single] at hlook
            by_cases hτ : τ = startSt s
            · rw [if_pos hτ] at hlook
              simp only [Option.some.injEq] at hlook
              subst hτ
              exact ⟨hsmem, [], by rw [← hlook]; rfl, by simp⟩
            · rw [if_neg hτ] at hlook
              exact Option.noConfusion hlook
          have hStart0 : StartInv (startSt s) [(startSt s, ⟨0, 0⟩)] := by
            refine ⟨⟨0, 0⟩, ?_, le_of_eq toReal_zero⟩
            rw [lookupD_single, if_pos rfl]
          have hfix := solveDist_fix g net vc tc fuel _ df hsolve
          have hSound : Sound g net vc tc (startSt s) df :=
            solveDist_inv g net vc tc _ (Sound_relaxRound g net vc tc (startSt s))
              fuel _ df hsolve hSound0
          have hStart : StartInv (startSt s) df :=
            solveDist_inv g net vc tc _
              (StartInv_relaxRound g net vc tc (startSt s) hsmem)
              fuel _ df hsolve hStart0
          obtain ⟨c₀, hlook0, hle0⟩ := hStart
          have hc₀ : c₀ = ⟨0, 0⟩ := Cost.eq_zero_of_toReal_nonpos c₀ hle0
          subst hc₀
          -- Backtracked chain facts
          obtain ⟨hhead, hlast, cb, hcc, hlookb⟩ :=
            backtrack_spec g net vc tc df (startSt s) hlook0 _ prc.1 l hback
          obtain ⟨hlookt, ⟨dd, hdd, hτeq⟩, hmin⟩ :=
            bestTarget_spec df t prc.1 prc.2 (by rw [← hbt])
          have hcb : cb = prc.2 := by
            rw [hlookb] at hlookt
            exact Option.some.inj hlookt
          subst hcb
          refine ⟨⟨hhead, ⟨prc.1, hlast, by rw [hτeq], by rw [hτeq], by rw [hτeq]⟩, hcc⟩,
            ?_, ?_⟩
          · -- minimality
            intro l₂ c₂ hvc
            obtain ⟨hhead₂, ⟨τ₂, hlast₂, hx₂, hy₂, hl₂⟩, hcost₂⟩ := hvc
            cases l₂ with
            | nil => exact Option.noConfusion hhead₂
            | cons a rest =>
              simp only [List.head?_cons, Option.some.injEq] at hhead₂
              subst hhead₂
              simp only [chainCost] at hcost₂
              obtain ⟨τl, cl, hlastl, hlookl, hlel⟩ :=
                fix_lower_bound g net vc tc df hfix rest (startSt s) ⟨0, 0⟩ c₂
                  hsmem hlook0 hcost₂
              have hτl : τ₂ = τl := by
                rw [hlast₂] at hlastl
                exact Option.some.inj hlastl
              rw [← hτl] at hlookl
              have hτ₂mem : τ₂ ∈ allStates g := by
                have hm := getLast?_mem_of_eq hlast₂
                rcases List.mem_cons.mp hm with rfl | hmem
                · exact hsmem
                · cases hcr : tailCost g net vc tc (startSt s) rest with
                  | none => rw [hcr] at hcost₂; exact Option.noConfusion hcost₂
                  | some cc =>
                    exact (chain_tail_facts g net vc tc rest (startSt s) cc hsmem
                      hcr τ₂ hmem).1
              have hdir : τ₂.dir < 9 := ((mem_allStates g τ₂).mp hτ₂mem).2.2.2
              have hτ₂eq : τ₂ = ⟨t.pt.x, t.pt.y, t.layer, τ₂.dir⟩ := by
                cases τ₂ with
                | mk a b cc dd => simp only at hx₂ hy₂ hl₂; rw [hx₂, hy₂, hl₂]
              have hminl := hmin τ₂.dir hdir
              rw [← hτ₂eq, hlookl] at hminl
              have h1 : prc.2.toReal ≤ cl.toReal := hminl
              rw [toReal_zero] at hlel
              linarith
          · -- every path cell is traversable
            intro σ hσ
            cases hl0 : l with
            | nil => rw [hl0] at hσ; simp at hσ
            | cons a rest =>
              rw [hl0] at hσ hhead hcc
              simp only [List.head?_cons, Option.some.injEq] at hhead
              rcases List.mem_cons.mp hσ with rfl | hmem
              · rw [hhead]
                exact hstrav
              · simp only [chainCost] at hcc
                subst hhead
                exact (chain_tail_facts g net vc tc rest (startSt s) prc.2 hsmem
                  hcc σ hmem).2
  · rw [if_neg hcond] at h
    exact Option.noConfusion h

/-!
## Commit characterisation
-/

theorem reserve_fields (g : Grid) (cells : List Pt) (layer : Nat) (net : String) :
    (g.reserve cells layer net).width = g.width ∧
    (g.reserve cells layer net).height = g.height ∧
    (g.reserve cells layer net).layers = g.layers ∧
    (g.reserve cells layer net).pitch = g.pitch ∧
    (g.reserve cells layer net).clearance = g.clearance :=
  ⟨rfl, rfl, rfl, rfl, rfl⟩

theorem foldReserve_occ (net : String) (f : Nat → List Pt) :
    ∀ (L : List Nat) (h : Grid) (x y lz : Nat),
      (L.foldl (fun h l => h.reserve (f l) l net) h).occ x y lz =
        if ∃ l ∈ L, lz = l ∧ Pt.mk x y ∈ f l then Cell.trace net
        else h.occ x y lz := by
  intro L
  induction L with
  | nil =>
    intro h x y lz
    simp
  | cons l₀ L ih =>
    intro h x y lz
    simp only [List.foldl_cons]
    rw [ih]
    by_cases hin : ∃ l ∈ L, lz = l ∧ Pt.mk x y ∈ f l
    · rw [if_pos hin, if_pos ?_]
      obtain ⟨l, hl, hrest⟩ := hin
      exact ⟨l, List.mem_cons_of_mem _ hl, hrest⟩
    · rw [if_neg hin]
      by_cases h0 : lz = l₀ ∧ Pt.mk x y ∈ f l₀
      · rw [if_pos ⟨l₀, List.mem_cons_self _ _, h0⟩]
        simp only [Grid.reserve]
        rw [if_pos ⟨h0.1, h0.2⟩]
      · rw [if_neg ?_]
        · simp only [Grid.reserve]
          rw [if_neg h0]
        · rintro ⟨l, hl, hlz, hmem⟩
          rcases List.mem_cons.mp hl with rfl | hl'
          · exact h0 ⟨hlz, hmem⟩
          · exact hin ⟨l, hl', hlz, hmem⟩

theorem foldReserve_fields (net : String) (f : Nat → List Pt) :
    ∀ (L : List Nat) (h : Grid),
      (L.foldl (fun h l => h.reserve (f l) l net) h).width = h.width ∧
      (L.foldl (fun h l => h.reserve (f l) l net) h).height = h.height ∧
      (L.foldl (fun h l => h.reserve (f l) l net) h).layers = h.layers ∧
      (L.foldl (fun h l => h.reserve (f l) l net) h).pitch = h.pitch ∧
      (L.foldl (fun h l => h.reserve (f l) l net) h).clearance = h.clearance := by
  intro L
  induction L with
  | nil => intro h; exact ⟨rfl, rfl, rfl, rfl, rfl⟩
  | cons l₀ L ih =>
    intro h
    simp only [List.foldl_cons]
    exact ih (h.reserve (f l₀) l₀ net)

theorem commitPath_occ (g : Grid) (cells : List (Pt × Nat)) (net : String)
    (x y lz : Nat) :
    (g.commitPath cells net).occ x y lz =
      if lz < g.layers ∧ (Pt.mk x y, lz) ∈ cells then Cell.trace net
      else g.occ x y lz := by
  rw [Grid.commitPath, foldReserve_occ]
  congr 1
  simp only [eq_iff_iff]
  constructor
  · rintro ⟨l, hl, rfl, hmem⟩
    simp only [List.mem_map, List.mem_filter] at hmem
    obtain ⟨e, ⟨hecells, helay⟩, hept⟩ := hmem
    refine ⟨List.mem_range.mp hl, ?_⟩
    have he2 : e.2 = lz := by simpa using helay
    have : e = (Pt.mk x y, lz) := by
      cases e with
      | mk e1 e2 =>
        simp only at hept he2
        rw [hept, he2]
    rwa [this] at hecells
  · rintro ⟨hlz, hmem⟩
    refine ⟨lz, List.mem_range.mpr hlz, rfl, ?_⟩
    simp only [List.mem_map, List.mem_filter]
    exact ⟨(Pt.mk x y, lz), ⟨hmem, by simp⟩, rfl⟩

theorem commitPath_fields (g : Grid) (cells : List (Pt × Nat)) (net : String) :
    (g.commitPath cells net).width = g.width ∧
    (g.commitPath cells net).height = g.height ∧
    (g.commitPath cells net).layers = g.layers ∧
    (g.commitPath cells net).pitch = g.pitch ∧
    (g.commitPath cells net).clearance = g.clearance :=
  foldReserve_fields net _ (List.range g.layers) g

/-!
## Netlist, net ordering and the Routing Orchestrator

Modelled from the spec §4.5: nets are sorted by explicit priority first, then
by ascending endpoint count, then by declaration order; multi-pin nets are
decomposed into a minimum-spanning-tree of pairwise connections (Prim-style,
Manhattan distance) routed edge by edge; failures are recorded per net and
never abort the pass.
-/

/-- Modelled from the spec: a net — name, explicit priority flag, and the
absolute grid coordinates of its pins (all pins enter routing on layer 0). -/
structure Net where
  name : String
  priority : Bool
  pins : List Pt
deriving DecidableEq

/-- Router configuration: via penalty, turn penalty, search budget. -/
structure RouteConfig where
  viaCost : Nat
  turnCost : Nat
  fuel : Nat
deriving DecidableEq

def manhattan (p q : Pt) : Nat := natDist p.x q.x + natDist p.y q.y

/-- First element minimising `f` (deterministic tie-break). -/
def pickMinBy (f : Pt → Nat) : List Pt → Option Pt
  | [] => none
  | a :: rest =>
    match pickMinBy f rest with
    | none => some a
    | some b => if f a ≤ f b then some a else some b

/-- Manhattan distance from a point to the nearest tree vertex. -/
def distToTree (tree : List Pt) (p : Pt) : Nat :=
  match tree with
  | [] => 0
  | q :: rest => rest.foldl (fun acc r => min acc (manhattan r p)) (manhattan q p)

/-- Prim-style minimum-spanning-tree construction: repeatedly connect the
remaining pin nearest to the tree to its nearest tree vertex. -/
def primGo : List Pt → List Pt → Nat → List (Pt × Pt)
  | _, _, 0 => []
  | tree, remaining, fuel + 1 =>
    match pickMinBy (distToTree tree) remaining with
    | none => []
    | some p =>
      let anchor := (pickMinBy (fun q => manhattan q p) tree).getD p
      (anchor, p) :: primGo (p :: tree) (remaining.erase p) fuel

/-- Modelled from the spec: decomposition of a multi-pin net into
minimum-spanning-tree edges over its pins (a 2-pin net yields its single
pair). -/
def mstEdges : List Pt → List (Pt × Pt)
  | [] => []
  | p :: rest => primGo [p] rest rest.length

/-- Per-net routing record: successfully routed tree edges (with their state
paths) and failed tree edges. -/
structure NetResult where
  name : String
  segs : List (EndPt × EndPt × List RState)
  failed : List (EndPt × EndPt)
deriving DecidableEq

/-- Route one tree edge: on success commit the path into grid occupancy,
on `NoPathFound` (including budget exhaustion) record the failure and
continue — never abort. -/
def routeEdgeStep (cfg : RouteConfig) (net : String) (st : NetResult × Grid)
    (e : Pt × Pt) : NetResult × Grid :=
  let s : EndPt := ⟨e.1, 0⟩
  let t : EndPt := ⟨e.2, 0⟩
  match findPath st.2 net cfg.viaCost cfg.turnCost cfg.fuel s t with
  | none => ({ st.1 with failed := st.1.failed ++ [(s, t)] }, st.2)
  | some pr =>
    ({ st.1 with segs := st.1.segs ++ [(s, t, pr.path)] },
      st.2.commitPath (cellsOf pr.path) net)

/-- Route one net: its minimum-spanning-tree edges in order. -/
def routeNet (cfg : RouteConfig) (g : Grid) (n : Net) : NetResult × Grid :=
  (mstEdges n.pins).foldl (routeEdgeStep cfg n.name) (⟨n.name, [], []⟩, g)

/-- Route a list of nets in the given order against the shared grid. -/
def routeList (cfg : RouteConfig) : List Net → Grid → List NetResult × Grid
  | [], g => ([], g)
  | n :: rest, g =>
    let rg := routeNet cfg g n
    let rest' := routeList cfg rest rg.2
    (rg.1 :: rest'.1, rest'.2)

/-- The spec's net-ordering key: explicit priority first, then ascending
endpoint count, then declaration index (lexicographic). -/
def netRank (e : Nat × Net) : Nat × Nat × Nat :=
  (if e.2.priority then 0 else 1, e.2.pins.length, e.1)

def keyLe (a b : Nat × Nat × Nat) : Prop :=
  a.1 < b.1 ∨ (a.1 = b.1 ∧ (a.2.1 < b.2.1 ∨ (a.2.1 = b.2.1 ∧ a.2.2 ≤ b.2.2)))

instance : DecidableRel keyLe := fun a b => by
  unfold keyLe
  infer_instance

def netLe (a b : Nat × Net) : Prop := keyLe (netRank a) (netRank b)

instance : DecidableRel netLe := fun a b => by
  unfold netLe
  infer_instance

instance : IsTotal (Nat × Net) netLe where
  total a b := by
    simp only [netLe, keyLe]
    omega

instance : IsTrans (Nat × Net) netLe where
  trans a b c hab hbc := by
    simp only [netLe, keyLe] at hab hbc ⊢
    omega

/-- Modelled from the spec: the deterministic net processing order — a stable
sort of the declaration order by (priority, endpoint count, declaration
index). -/
def orderNets (nets : List Net) : List (Nat × Net) :=
  List.insertionSort netLe nets.enum

/-- The result of a full routing pass (spec §3 Routed Layout). -/
structure RouteOutcome where
  grid : Grid
  results : List NetResult

/-- Modelled from the spec: the Routing Orchestrator — sort the nets,
route them one at a time against the shared grid, return the final grid
and all per-net results. -/
def routeAll (cfg : RouteConfig) (nets : List Net) (g : Grid) : RouteOutcome :=
  let rg := routeList cfg ((orderNets nets).map Prod.snd) g
  ⟨rg.2, rg.1⟩

/-!
### Routing statistics (spec §4.5 / §6)
-/

def NetResult.routedB (r : NetResult) : Bool := r.failed.isEmpty

def segVias (path : List RState) : List (Pt × Nat × Nat) :=
  (path.zip path.tail).filterMap fun e =>
    if e.1.layer ≠ e.2.layer then some (e.1.pt, e.1.layer, e.2.layer) else none

def NetResult.vias (r : NetResult) : List (Pt × Nat × Nat) :=
  r.segs.flatMap fun e => segVias e.2.2

def RouteOutcome.routedEdges (o : RouteOutcome) : Nat :=
  (o.results.map fun r => r.segs.length).sum

def RouteOutcome.totalEdges (o : RouteOutcome) : Nat :=
  (o.results.map fun r => r.segs.length + r.failed.length).sum

/-- Statistic `completion_rate = routed_edges / total_edges` (1 when there is nothing
to route). -/
def RouteOutcome.completionRate (o : RouteOutcome) : ℚ :=
  if o.totalEdges = 0 then 1 else (o.routedEdges : ℚ) / (o.totalEdges : ℚ)

def RouteOutcome.viaCount (o : RouteOutcome) : Nat :=
  (o.results.map fun r => r.vias.length).sum

def RouteOutcome.totalTraces (o : RouteOutcome) : Nat := o.routedEdges

def RouteOutcome.unroutedNets (o : RouteOutcome) : List String :=
  (o.results.filter fun r => !r.routedB).map NetResult.name

/-- The structured statistics record handed to the caller. -/
structure RouteStats where
  completionRate : ℚ
  totalTraces : Nat
  viaCount : Nat
  unrouted : List String
deriving DecidableEq

def RouteOutcome.stats (o : RouteOutcome) : RouteStats :=
  ⟨o.completionRate, o.totalTraces, o.viaCount, o.unroutedNets⟩

/-- A full routing input: netlist, board/grid geometry and the component
courtyard obstacles produced by placement. -/
structure Design where
  nets : List Net
  boardW : Nat
  boardH : Nat
  layerN : Nat
  pitch : Nat
  clearance : Nat
  obstacles : List (Pt × Nat)
deriving DecidableEq

/-- The initial Board Grid of a design: courtyard cells marked as obstacles,
everything else free. -/
def Design.grid (d : Design) : Grid :=
  { width := d.boardW, height := d.boardH, layers := d.layerN,
    pitch := d.pitch, clearance := d.clearance,
    occ := fun x y l => if (Pt.mk x y, l) ∈ d.obstacles then Cell.obstacle
                        else Cell.free }

/-- One complete routing run over a design. -/
def runDesign (d : Design) (cfg : RouteConfig) : RouteOutcome × RouteStats :=
  let o := routeAll cfg d.nets d.grid
  (o, o.stats)

/-!
## The no-overlap / clearance invariant (spec §3, §8)
-/

/-- Any two in-bounds trace cells of different nets on the same layer are at
least `clearRing = ceil(clearance/cell_pitch)` cells apart. -/
def GridInv (g : Grid) : Prop :=
  ∀ p q l n m, p.x < g.width → p.y < g.height → q.x < g.width → q.y < g.height →
    l < g.layers →
    g.occ p.x p.y l = Cell.trace n → g.occ q.x q.y l = Cell.trace m → n ≠ m →
    g.clearRing ≤ cheb p q

/-- A grid with no trace cells at all (the initial Board Grid: only free
cells and component-courtyard obstacles). -/
def TraceFree (g : Grid) : Prop :=
  ∀ x y l n, x < g.width → y < g.height → l < g.layers →
    g.occ x y l ≠ Cell.trace n

theorem GridInv_of_TraceFree {g : Grid} (h : TraceFree g) : GridInv g := by
  intro p q l n m hpx hpy hqx hqy hl hp hq hnm
  exact absurd hp (h p.x p.y l n hpx hpy hl)

/-- A traversable cell keeps every other net's in-bounds trace at ring
distance. -/
theorem trav_clear {g : Grid} {p : Pt} {layer : Nat} {net : String}
    (h : g.is_traversable p layer net = true) :
    ∀ q : Pt, q.x < g.width → q.y < g.height →
      (g.occ q.x q.y layer).otherTrace net = true → g.clearRing ≤ cheb p q := by
  intro q hqx hqy hother
  simp only [Grid.is_traversable, Bool.and_eq_true] at h
  have hclear := h.2
  simp only [Grid.clearOK, List.all_eq_true, List.mem_range] at hclear
  have := hclear q.x hqx q.y hqy
  simp only [Bool.or_eq_true, Bool.not_eq_true', decide_eq_false_iff_not] at this
  rcases this with h1 | h1
  · have : ¬ cheb p ⟨q.x, q.y⟩ < g.clearRing := by
      simpa using h1
    have hq : (⟨q.x, q.y⟩ : Pt) = q := by cases q with | mk a b => rfl
    rw [hq] at this
    omega
  · rw [hother] at h1
    exact Bool.noConfusion h1

/-- Committing cells that are all traversable for `net` preserves the
clearance invariant. -/
theorem GridInv_commit (g : Grid) (net : String) (cells : List (Pt × Nat))
    (hinv : GridInv g)
    (htrav : ∀ e ∈ cells, g.is_traversable e.1 e.2 net = true) :
    GridInv (g.commitPath cells net) := by
  obtain ⟨hw, hh, hl, hpi, hcl⟩ := commitPath_fields g cells net
  have hring : (g.commitPath cells net).clearRing = g.clearRing := by
    simp only [Grid.clearRing, hpi, hcl]
  intro p q l n m hpx hpy hqx hqy hlay hp hq hnm
  rw [hw] at hpx hqx
  rw [hh] at hpy hqy
  rw [hl] at hlay
  rw [hring]
  rw [commitPath_occ] at hp hq
  by_cases hpc : l < g.layers ∧ (Pt.mk p.x p.y, l) ∈ cells
  · rw [if_pos hpc] at hp
    have hn : n = net := (Cell.trace.inj hp).symm
    by_cases hqc : l < g.layers ∧ (Pt.mk q.x q.y, l) ∈ cells
    · rw [if_pos hqc] at hq
      have hm : m = net := (Cell.trace.inj hq).symm
      exact absurd (hn.trans hm.symm) hnm
    · rw [if_neg hqc] at hq
      have htp := htrav (Pt.mk p.x p.y, l) hpc.2
      have hpp : (Pt.mk p.x p.y) = p := by cases p with | mk a b => rfl
      rw [hpp] at htp
      apply trav_clear htp q hqx hqy
      simp only [hq, Cell.otherTrace]
      rw [hn] at hnm
      simpa using fun hc => hnm hc.symm
  · rw [if_neg hpc] at hp
    by_cases hqc : l < g.layers ∧ (Pt.mk q.x q.y, l) ∈ cells
    · rw [if_pos hqc] at hq
      have hm : m = net := (Cell.trace.inj hq).symm
      have htq := htrav (Pt.mk q.x q.y, l) hqc.2
      have hqq : (Pt.mk q.x q.y) = q := by cases q with | mk a b => rfl
      rw [hqq] at htq
      rw [cheb_comm]
      apply trav_clear htq p hpx hpy
      simp only [hp, Cell.otherTrace]
      rw [hm] at hnm
      simpa using fun hc => hnm hc
    · rw [if_neg hqc] at hq
      exact hinv p q l n m hpx hpy hqx hqy hlay hp hq hnm

/-- Geometry (everything except occupancy) of two grids agrees. -/
def sameGeom (g h : Grid) : Prop :=
  g.width = h.width ∧ g.height = h.height ∧ g.layers = h.layers ∧
  g.pitch = h.pitch ∧ g.clearance = h.clearance

theorem sameGeom_refl (g : Grid) : sameGeom g g := ⟨rfl, rfl, rfl, rfl, rfl⟩

theorem sameGeom_trans {a b c : Grid} (h1 : sameGeom a b) (h2 : sameGeom b c) :
    sameGeom a c := by
  obtain ⟨w1, h1a, l1, p1, c1⟩ := h1
  obtain ⟨w2, h2a, l2, p2, c2⟩ := h2
  exact ⟨w1.trans w2, h1a.trans h2a, l1.trans l2, p1.trans p2, c1.trans c2⟩

theorem sameGeom_commit (g : Grid) (cells : List (Pt × Nat)) (net : String) :
    sameGeom g (g.commitPath cells net) := by
  obtain ⟨hw, hh, hl, hpi, hcl⟩ := commitPath_fields g cells net
  exact ⟨hw.symm, hh.symm, hl.symm, hpi.symm, hcl.symm⟩

theorem routeEdgeStep_grid (cfg : RouteConfig) (net : String)
    (st : NetResult × Grid) (e : Pt × Pt) :
    GridInv st.2 → GridInv (routeEdgeStep cfg net st e).2 := by
  intro hinv
  rw [routeEdgeStep]
  cases hfp : findPath st.2 net cfg.viaCost cfg.turnCost cfg.fuel ⟨e.1, 0⟩ ⟨e.2, 0⟩ with
  | none => exact hinv
  | some pr =>
    apply GridInv_commit st.2 net (cellsOf pr.path) hinv
    intro c hc
    simp only [cellsOf, List.mem_map] at hc
    obtain ⟨σ, hσ, rfl⟩ := hc
    exact (findPath_spec st.2 net cfg.viaCost cfg.turnCost cfg.fuel _ _ pr hfp).2.2 σ hσ

theorem routeEdgeStep_geom (cfg : RouteConfig) (net : String)
    (st : NetResult × Grid) (e : Pt × Pt) :
    sameGeom st.2 (routeEdgeStep cfg net st e).2 := by
  rw [routeEdgeStep]
  cases hfp : findPath st.2 net cfg.viaCost cfg.turnCost cfg.fuel ⟨e.1, 0⟩ ⟨e.2, 0⟩ with
  | none => exact sameGeom_refl _
  | some pr => exact sameGeom_commit _ _ _

theorem routeNet_grid (cfg : RouteConfig) (name : String) :
    ∀ (edges : List (Pt × Pt)) (st : NetResult × Grid), GridInv st.2 →
      GridInv (edges.foldl (routeEdgeStep cfg name) st).2 := by
  intro edges
  induction edges with
  | nil => intro st h; exact h
  | cons e rest ih =>
    intro st h
    simp only [List.foldl_cons]
    exact ih _ (routeEdgeStep_grid cfg name st e h)

theorem routeNet_geom (cfg : RouteConfig) (name : String) :
    ∀ (edges : List (Pt × Pt)) (st : NetResult × Grid),
      sameGeom st.2 (edges.foldl (routeEdgeStep cfg name) st).2 := by
  intro edges
  induction edges with
  | nil => intro st; exact sameGeom_refl _
  | cons e rest ih =>
    intro st
    simp only [List.foldl_cons]
    exact sameGeom_trans (routeEdgeStep_geom cfg name st e) (ih _)

theorem routeList_grid (cfg : RouteConfig) :
    ∀ (nets : List Net) (g : Grid), GridInv g →
      GridInv (routeList cfg nets g).2 := by
  intro nets
  induction nets with
  | nil => intro g h; exact h
  | cons n rest ih =>
    intro g h
    simp only [routeList]
    exact ih _ (routeNet_grid cfg n.name (mstEdges n.pins) _ h)

/-- Routing a concatenated net list equals routing the first part and then
the second part from the intermediate grid. -/
theorem routeList_append (cfg : RouteConfig) :
    ∀ (l₁ l₂ : List Net) (g : Grid),
      routeList cfg (l₁ ++ l₂) g =
        ((routeList cfg l₁ g).1 ++ (routeList cfg l₂ (routeList cfg l₁ g).2).1,
         (routeList cfg l₂ (routeList cfg l₁ g).2).2) := by
  intro l₁
  induction l₁ with
  | nil => intro l₂ g; rfl
  | cons n rest ih =>
    intro l₂ g
    simp only [List.cons_append, routeList, List.append_eq, ih]

/-!
## Connectivity of routed nets (spec §8 "Connectivity")
-/

/-- Geometric adjacency of successive path states: a one-cell planar move
(in the recorded direction) on the same layer, or a one-layer via move at
the same cell. -/
def adjStep (σ τ : RState) : Prop :=
  (τ.layer = σ.layer ∧ stepPt σ.pt τ.dir = some τ.pt) ∨
  ((τ.layer = σ.layer + 1 ∨ τ.layer + 1 = σ.layer) ∧ τ.x = σ.x ∧ τ.y = σ.y)

theorem edge_adjStep {g : Grid} {net : String} {vc tc : Nat} {σ τ : RState}
    {e : Cost} (h : edgeCost g net vc tc σ τ = some e) : adjStep σ τ := by
  simp only [edgeCost] at h
  by_cases hlay : τ.layer = σ.layer
  · rw [if_pos hlay] at h
    cases hstep : stepPt σ.pt τ.dir with
    | none => rw [hstep] at h; simp at h
    | some p =>
      rw [hstep] at h
      by_cases hc : τ.x = p.x ∧ τ.y = p.y ∧ τ.dir < 8 ∧ g.is_traversable p σ.layer net
      · left
        refine ⟨hlay, ?_⟩
        rw [hstep]
        congr 1
        cases p with
        | mk a b =>
          cases τ with
          | mk tx ty tl td =>
            simp only [RState.pt]
            simp only at hc
            rw [hc.1, hc.2.1]
      · have h' : (if τ.x = p.x ∧ τ.y = p.y ∧ τ.dir < 8 ∧
            g.is_traversable p σ.layer net = true then
            some ((if isDiag τ.dir = true then Cost.mk 0 g.pitch
              else Cost.mk g.pitch 0).add
              (if σ.dir ≠ 8 ∧ σ.dir ≠ τ.dir then Cost.mk tc 0 else Cost.mk 0 0))
            else none) = some e := h
        rw [if_neg hc] at h'
        simp at h'
  · rw [if_neg hlay] at h
    by_cases hc : (τ.layer = σ.layer + 1 ∨ τ.layer + 1 = σ.layer) ∧
        τ.x = σ.x ∧ τ.y = σ.y ∧ τ.dir = σ.dir
    · right
      exact ⟨hc.1, hc.2.1, hc.2.2.1⟩
    · rw [if_neg hc] at h
      simp at h

theorem chain_adjacent (g : Grid) (net : String) (vc tc : Nat) :
    ∀ (rest : List RState) (σ₀ : RState) (c : Cost),
      tailCost g net vc tc σ₀ rest = some c →
      List.Chain' adjStep (σ₀ :: rest) := by
  intro rest
  induction rest with
  | nil => intro σ₀ c h; simp
  | cons σ₁ rest ih =>
    intro σ₀ c h
    simp only [tailCost] at h
    cases h1 : edgeCost g net vc tc σ₀ σ₁ with
    | none => rw [h1] at h; simp at h
    | some e1 =>
      rw [h1] at h
      cases h2 : tailCost g net vc tc σ₁ rest with
      | none => rw [h2] at h; simp at h
      | some c2 =>
        exact List.Chain'.cons (edge_adjStep h1) (ih σ₁ c2 h2)

/-- A well-formed routed segment: its state path starts at the start state
of its first endpoint, ends at the cell/layer of its second endpoint, and
every consecutive pair of states is geometrically adjacent. -/
def SegOK (sg : EndPt × EndPt × List RState) : Prop :=
  sg.2.2.head? = some (startSt sg.1) ∧
  (∃ τ, sg.2.2.getLast? = some τ ∧ τ.x = sg.2.1.pt.x ∧ τ.y = sg.2.1.pt.y ∧
    τ.layer = sg.2.1.layer) ∧
  List.Chain' adjStep sg.2.2

theorem pickMinBy_mem (f : Pt → Nat) :
    ∀ (l : List Pt) (p : Pt), pickMinBy f l = some p → p ∈ l := by
  intro l
  induction l with
  | nil => intro p h; simp [pickMinBy] at h
  | cons a rest ih =>
    intro p h
    rw [pickMinBy] at h
    cases hr : pickMinBy f rest with
    | none =>
      simp only [hr, Option.some.injEq] at h
      subst h
      exact List.mem_cons_self _ _
    | some b =>
      simp only [hr] at h
      by_cases hle : f a ≤ f b
      · rw [if_pos hle] at h
        simp only [Option.some.injEq] at h
        subst h
        exact List.mem_cons_self _ _
      · rw [if_neg hle] at h
        simp only [Option.some.injEq] at h
        subst h
        exact List.mem_cons_of_mem _ (ih b hr)

theorem pickMinBy_isSome (f : Pt → Nat) :
    ∀ (l : List Pt), l ≠ [] → (pickMinBy f l).isSome := by
  intro l
  induction l with
  | nil => intro h; exact absurd rfl h
  | cons a rest ih =>
    intro _
    rw [pickMinBy]
    cases hr : pickMinBy f rest with
    | none => simp only [hr]; rfl
    | some b =>
      simp only [hr]
      by_cases hle : f a ≤ f b
      · rw [if_pos hle]; rfl
      · rw [if_neg hle]; rfl

/-- Every pin connected by the Prim construction reaches some tree vertex
through the produced edges. -/
theorem primGo_connects :
    ∀ (fuel : Nat) (tree remaining : List Pt), remaining.length ≤ fuel →
      tree ≠ [] →
      ∀ x ∈ remaining, ∃ t ∈ tree,
        Relation.EqvGen (fun a b => (a, b) ∈ primGo tree remaining fuel) x t := by
  intro fuel
  induction fuel with
  | zero =>
    intro tree remaining hlen _ x hx
    have : remaining = [] := List.length_eq_zero.mp (Nat.le_zero.mp hlen)
    rw [this] at hx
    simp at hx
  | succ k ih =>
    intro tree remaining hlen htree x hx
    have hne : remaining ≠ [] := by
      intro hc
      rw [hc] at hx
      simp at hx
    cases hpick : pickMinBy (distToTree tree) remaining with
    | none =>
      have := pickMinBy_isSome (distToTree tree) remaining hne
      rw [hpick] at this
      simp at this
    | some p =>
      have hpmem := pickMinBy_mem _ _ _ hpick
      have hanchor : (pickMinBy (fun q => manhattan q p) tree).getD p ∈ tree := by
        cases htp : pickMinBy (fun q => manhattan q p) tree with
        | none =>
          have := pickMinBy_isSome (fun q => manhattan q p) tree htree
          rw [htp] at this
          simp at this
        | some b =>
          simp only [Option.getD_some]
          exact pickMinBy_mem _ _ _ htp
      have hprim : primGo tree remaining (k + 1) =
          ((pickMinBy (fun q => manhattan q p) tree).getD p, p) ::
            primGo (p :: tree) (remaining.erase p) k := by
        rw [primGo, hpick]
      by_cases hxp : x = p
      · subst hxp
        refine ⟨(pickMinBy (fun q => manhattan q x) tree).getD x, hanchor, ?_⟩
        apply Relation.EqvGen.symm
        apply Relation.EqvGen.rel
        rw [hprim]
        exact List.mem_cons_self _ _
      · have hxer : x ∈ remaining.erase p := (List.mem_erase_of_ne hxp).mpr hx
        have hlen' : (remaining.erase p).length ≤ k := by
          rw [List.length_erase_of_mem hpmem]
          omega
        obtain ⟨t, ht, hgen⟩ := ih (p :: tree) (remaining.erase p) hlen'
          (by simp) x hxer
        have hgen' : Relation.EqvGen
            (fun a b => (a, b) ∈ primGo tree remaining (k + 1)) x t := by
          apply Relation.EqvGen.mono ?_ hgen
          intro a b hab
          rw [hprim]
          exact List.mem_cons_of_mem _ hab
        rcases List.mem_cons.mp ht with rfl | htt
        · refine ⟨(pickMinBy (fun q => manhattan q t) tree).getD t, hanchor, ?_⟩
          apply Relation.EqvGen.trans _ _ _ hgen'
          apply Relation.EqvGen.symm
          apply Relation.EqvGen.rel
          rw [hprim]
          exact List.mem_cons_self _ _
        · exact ⟨t, htt, hgen'⟩

/-- Every Prim edge has both endpoints among the given vertices. -/
theorem primGo_ends :
    ∀ (fuel : Nat) (tree remaining : List Pt) (e : Pt × Pt),
      e ∈ primGo tree remaining fuel →
      (e.1 ∈ tree ∨ e.1 ∈ remaining) ∧ e.2 ∈ remaining := by
  intro fuel
  induction fuel with
  | zero => intro tree remaining e h; simp [primGo] at h
  | succ k ih =>
    intro tree remaining e h
    cases hpick : pickMinBy (distToTree tree) remaining with
    | none =>
      rw [primGo, hpick] at h
      simp at h
    | some p =>
      have hpmem := pickMinBy_mem _ _ _ hpick
      rw [primGo, hpick] at h
      rcases List.mem_cons.mp h with rfl | htail
      · constructor
        · cases htp : pickMinBy (fun q => manhattan q p) tree with
          | none => right; simpa using hpmem
          | some b =>
            left
            simpa using pickMinBy_mem _ _ _ htp
        · exact hpmem
      · obtain ⟨h1, h2⟩ := ih (p :: tree) (remaining.erase p) e htail
        constructor
        · rcases h1 with h1 | h1
          · rcases List.mem_cons.mp h1 with rfl | h1'
            · right; exact hpmem
            · left; exact h1'
          · right; exact List.mem_of_mem_erase h1
        · exact List.mem_of_mem_erase h2

/-- All pins of a net are pairwise connected through its MST edges. -/
theorem mstEdges_connects (pins : List Pt) :
    ∀ p ∈ pins, ∀ q ∈ pins,
      Relation.EqvGen (fun a b => (a, b) ∈ mstEdges pins) p q := by
  cases pins with
  | nil => intro p hp; simp at hp
  | cons p₀ rest =>
    have hbase : ∀ x ∈ p₀ :: rest,
        Relation.EqvGen (fun a b => (a, b) ∈ mstEdges (p₀ :: rest)) x p₀ := by
      intro x hx
      rcases List.mem_cons.mp hx with rfl | hx'
      · exact Relation.EqvGen.refl x
      · obtain ⟨t, ht, hgen⟩ := primGo_connects rest.length [p₀] rest le_rfl
          (by simp) x hx'
        simp only [List.mem_singleton] at ht
        subst ht
        exact hgen
    intro p hp q hq
    exact Relation.EqvGen.trans _ _ _ (hbase p hp)
      (Relation.EqvGen.symm _ _ (hbase q hq))

theorem mstEdges_ends (pins : List Pt) (e : Pt × Pt) (h : e ∈ mstEdges pins) :
    e.1 ∈ pins ∧ e.2 ∈ pins := by
  cases pins with
  | nil => simp [mstEdges] at h
  | cons p₀ rest =>
    obtain ⟨h1, h2⟩ := primGo_ends rest.length [p₀] rest e h
    constructor
    · rcases h1 with h1 | h1
      · simp only [List.mem_singleton] at h1
        rw [h1]
        exact List.mem_cons_self _ _
      · exact List.mem_cons_of_mem _ h1
    · exact List.mem_cons_of_mem _ h2

/-- A successful path-router result yields a well-formed segment. -/
theorem findPath_SegOK (g : Grid) (net : String) (vc tc fuel : Nat)
    (s t : EndPt) (pr : PathResult)
    (h : findPath g net vc tc fuel s t = some pr) : SegOK (s, t, pr.path) := by
  obtain ⟨⟨hhead, hlast, hcost⟩, _, _⟩ := findPath_spec g net vc tc fuel s t pr h
  refine ⟨hhead, hlast, ?_⟩
  cases hp : pr.path with
  | nil => rw [hp] at hhead; exact Option.noConfusion hhead
  | cons a rest =>
    rw [hp] at hcost
    simp only [chainCost] at hcost
    exact chain_adjacent g net vc tc rest a _ hcost


/-- Explicit form of one edge-routing step. -/
theorem routeEdgeStep_eq (cfg : RouteConfig) (name : String)
    (st : NetResult × Grid) (e : Pt × Pt) :
    routeEdgeStep cfg name st e =
      match findPath st.2 name cfg.viaCost cfg.turnCost cfg.fuel
          ⟨e.1, 0⟩ ⟨e.2, 0⟩ with
      | none =>
        (⟨st.1.name, st.1.segs, st.1.failed ++ [(⟨e.1, 0⟩, ⟨e.2, 0⟩)]⟩, st.2)
      | some pr =>
        (⟨st.1.name, st.1.segs ++ [(⟨e.1, 0⟩, ⟨e.2, 0⟩, pr.path)], st.1.failed⟩,
          st.2.commitPath (cellsOf pr.path) name) := rfl

/-- The per-net edge fold only appends to the failure list. -/
theorem fold_failed_ext (cfg : RouteConfig) (name : String) :
    ∀ (edges : List (Pt × Pt)) (st : NetResult × Grid),
      ∃ suff, (edges.foldl (routeEdgeStep cfg name) st).1.failed =
        st.1.failed ++ suff := by
  intro edges
  induction edges with
  | nil => intro st; exact ⟨[], by simp⟩
  | cons e rest ih =>
    intro st
    simp only [List.foldl_cons, routeEdgeStep_eq]
    cases hfp : findPath st.2 name cfg.viaCost cfg.turnCost cfg.fuel
        ⟨e.1, 0⟩ ⟨e.2, 0⟩ with
    | none =>
      simp only [hfp]
      obtain ⟨suff, hsuff⟩ :=
        ih (⟨st.1.name, st.1.segs, st.1.failed ++ [(⟨e.1, 0⟩, ⟨e.2, 0⟩)]⟩, st.2)
      rw [hsuff]
      exact ⟨(⟨e.1, 0⟩, ⟨e.2, 0⟩) :: suff, by simp⟩
    | some pr =>
      simp only [hfp]
      obtain ⟨suff, hsuff⟩ :=
        ih (⟨st.1.name, st.1.segs ++ [(⟨e.1, 0⟩, ⟨e.2, 0⟩, pr.path)],
          st.1.failed⟩, st.2.commitPath (cellsOf pr.path) name)
      rw [hsuff]
      exact ⟨suff, rfl⟩

/-- The per-net edge fold only appends to the segment list. -/
theorem fold_segs_ext (cfg : RouteConfig) (name : String) :
    ∀ (edges : List (Pt × Pt)) (st : NetResult × Grid),
      ∃ suff, (edges.foldl (routeEdgeStep cfg name) st).1.segs =
        st.1.segs ++ suff := by
  intro edges
  induction edges with
  | nil => intro st; exact ⟨[], by simp⟩
  | cons e rest ih =>
    intro st
    simp only [List.foldl_cons, routeEdgeStep_eq]
    cases hfp : findPath st.2 name cfg.viaCost cfg.turnCost cfg.fuel
        ⟨e.1, 0⟩ ⟨e.2, 0⟩ with
    | none =>
      simp only [hfp]
      obtain ⟨suff, hsuff⟩ :=
        ih (⟨st.1.name, st.1.segs, st.1.failed ++ [(⟨e.1, 0⟩, ⟨e.2, 0⟩)]⟩, st.2)
      rw [hsuff]
      exact ⟨suff, rfl⟩
    | some pr =>
      simp only [hfp]
      obtain ⟨suff, hsuff⟩ :=
        ih (⟨st.1.name, st.1.segs ++ [(⟨e.1, 0⟩, ⟨e.2, 0⟩, pr.path)],
          st.1.failed⟩, st.2.commitPath (cellsOf pr.path) name)
      rw [hsuff]
      exact ⟨(⟨e.1, 0⟩, ⟨e.2, 0⟩, pr.path) :: suff, by simp⟩

theorem fold_name (cfg : RouteConfig) (name : String) :
    ∀ (edges : List (Pt × Pt)) (st : NetResult × Grid),
      (edges.foldl (routeEdgeStep cfg name) st).1.name = st.1.name := by
  intro edges
  induction edges with
  | nil => intro st; rfl
  | cons e rest ih =>
    intro st
    simp only [List.foldl_cons, routeEdgeStep_eq]
    cases hfp : findPath st.2 name cfg.viaCost cfg.turnCost cfg.fuel
        ⟨e.1, 0⟩ ⟨e.2, 0⟩ with
    | none =>
      simp only [hfp]
      rw [ih]
    | some pr =>
      simp only [hfp]
      rw [ih]

/-- Segment soundness and completeness of the per-net edge fold. -/
theorem fold_segs_spec (cfg : RouteConfig) (name : String) :
    ∀ (edges : List (Pt × Pt)) (st : NetResult × Grid),
      (∀ sg ∈ (edges.foldl (routeEdgeStep cfg name) st).1.segs,
        sg ∈ st.1.segs ∨ (SegOK sg ∧ ∃ e ∈ edges, sg.1 = (⟨e.1, 0⟩ : EndPt) ∧
          sg.2.1 = (⟨e.2, 0⟩ : EndPt))) ∧
      ((edges.foldl (routeEdgeStep cfg name) st).1.failed = [] →
        ∀ e ∈ edges, ∃ sg ∈ (edges.foldl (routeEdgeStep cfg name) st).1.segs,
          sg.1 = (⟨e.1, 0⟩ : EndPt) ∧ sg.2.1 = (⟨e.2, 0⟩ : EndPt)) := by
  intro edges
  induction edges with
  | nil =>
    intro st
    constructor
    · intro sg hsg
      exact Or.inl hsg
    · intro _ e he
      simp at he
  | cons e rest ih =>
    intro st
    simp only [List.foldl_cons, routeEdgeStep_eq]
    cases hfp : findPath st.2 name cfg.viaCost cfg.turnCost cfg.fuel
        ⟨e.1, 0⟩ ⟨e.2, 0⟩ with
    | none =>
      simp only [hfp]
      constructor
      · intro sg hsg
        rcases (ih _).1 sg hsg with hold | ⟨hok, e', he', h1, h2⟩
        · exact Or.inl hold
        · exact Or.inr ⟨hok, e', List.mem_cons_of_mem _ he', h1, h2⟩
      · intro hfail
        obtain ⟨suff, hsuff⟩ :=
          fold_failed_ext cfg name rest
            (⟨st.1.name, st.1.segs, st.1.failed ++ [(⟨e.1, 0⟩, ⟨e.2, 0⟩)]⟩, st.2)
        rw [hsuff] at hfail
        simp at hfail
    | some pr =>
      simp only [hfp]
      constructor
      · intro sg hsg
        rcases (ih _).1 sg hsg with hold | ⟨hok, e', he', h1, h2⟩
        · simp only at hold
          rcases List.mem_append.mp hold with hold' | hnew
          · exact Or.inl hold'
          · simp only [List.mem_singleton] at hnew
            subst hnew
            exact Or.inr ⟨findPath_SegOK _ _ _ _ _ _ _ _ hfp,
              e, List.mem_cons_self _ _, rfl, rfl⟩
        · exact Or.inr ⟨hok, e', List.mem_cons_of_mem _ he', h1, h2⟩
      · intro hfail e' he'
        rcases List.mem_cons.mp he' with rfl | hrest
        · obtain ⟨suff, hsuff⟩ :=
            fold_segs_ext cfg name rest
              (⟨st.1.name, st.1.segs ++ [(⟨e'.1, 0⟩, ⟨e'.2, 0⟩, pr.path)],
                st.1.failed⟩, st.2.commitPath (cellsOf pr.path) name)
          refine ⟨(⟨e'.1, 0⟩, ⟨e'.2, 0⟩, pr.path), ?_, rfl, rfl⟩
          rw [hsuff]
          simp
        · exact (ih _).2 hfail e' hrest

/-- Per-net routing: name, well-formed segments, and (on full success)
one segment per minimum-spanning-tree edge. -/
theorem routeNet_spec (cfg : RouteConfig) (g : Grid) (n : Net) :
    (routeNet cfg g n).1.name = n.name ∧
    (∀ sg ∈ (routeNet cfg g n).1.segs, SegOK sg ∧
      ∃ e ∈ mstEdges n.pins, sg.1 = (⟨e.1, 0⟩ : EndPt) ∧
        sg.2.1 = (⟨e.2, 0⟩ : EndPt)) ∧
    ((routeNet cfg g n).1.failed = [] →
      ∀ e ∈ mstEdges n.pins, ∃ sg ∈ (routeNet cfg g n).1.segs,
        sg.1 = (⟨e.1, 0⟩ : EndPt) ∧ sg.2.1 = (⟨e.2, 0⟩ : EndPt)) := by
  refine ⟨fold_name cfg n.name (mstEdges n.pins) _, ?_, ?_⟩
  · intro sg hsg
    rcases (fold_segs_spec cfg n.name (mstEdges n.pins)
        (⟨n.name, [], []⟩, g)).1 sg hsg with hold | ⟨hok, he⟩
    · simp at hold
    · exact ⟨hok, he⟩
  · exact (fold_segs_spec cfg n.name (mstEdges n.pins) (⟨n.name, [], []⟩, g)).2

/-- The routing pass processes every net, in order, matching each input net
with a per-net result produced by `routeNet` on the then-current grid. -/
theorem routeList_spec (cfg : RouteConfig) :
    ∀ (ns : List Net) (g : Grid),
      List.Forall₂ (fun n r => ∃ gm : Grid, r = (routeNet cfg gm n).1)
        ns (routeList cfg ns g).1 := by
  intro ns
  induction ns with
  | nil => intro g; simp [routeList]
  | cons n rest ih =>
    intro g
    simp only [routeList]
    exact List.Forall₂.cons ⟨g, rfl⟩ (ih _)

/-!
## Placement Engine (spec §4.3)

Modelled from the spec: three strategies (grid / cluster / optimize).  All
strategies enforce, through a final validation gate, that a returned
placement lies fully inside board bounds with courtyard-to-courtyard
clearance at least the configured minimum — otherwise they fail with
`BoardTooSmall` (a component does not fit on the board) or
`PlacementFailed` (a clearance conflict), naming the offending component.
-/

structure Board where
  w : Nat
  h : Nat
deriving DecidableEq

/-- A component to place: reference id, courtyard dimensions (micrometres,
margin included) and the component-type marker `hot` (a high-current part
subject to the thermal/EMI keep-out heuristic). -/
structure Comp where
  ref : String
  w : Nat
  h : Nat
  hot : Bool
deriving DecidableEq

/-- A placed component: courtyard dimensions, the `hot` component-type
marker, lower-left corner and rotation (0/90/180/270). -/
structure Placed where
  ref : String
  w : Nat
  h : Nat
  hot : Bool
  x : Nat
  y : Nat
  rot : Nat
deriving DecidableEq

/-- Courtyard width after rotation. -/
def Placed.rotW (p : Placed) : Nat := if p.rot = 90 ∨ p.rot = 270 then p.h else p.w

/-- Courtyard height after rotation. -/
def Placed.rotH (p : Placed) : Nat := if p.rot = 90 ∨ p.rot = 270 then p.w else p.h

/-- The (rotated) courtyard lies fully inside board bounds. -/
def okBounds (b : Board) (p : Placed) : Bool :=
  p.x + p.rotW ≤ b.w && p.y + p.rotH ≤ b.h

/-- Two (rotated) courtyards are separated by at least `clear` along some
axis — they do not intersect and maintain the configured clearance. -/
def okPair (clear : Nat) (p q : Placed) : Bool :=
  (p.x + p.rotW + clear ≤ q.x) || (q.x + q.rotW + clear ≤ p.x) ||
  (p.y + p.rotH + clear ≤ q.y) || (q.y + q.rotH + clear ≤ p.y)

inductive PlaceError where
  | BoardTooSmall (ref : String) : PlaceError
  | PlacementFailed (ref : String) : PlaceError
deriving DecidableEq

/-- First component whose courtyard violates clearance against some later
component. -/
def firstPairViolation (clear : Nat) : List Placed → Option String
  | [] => none
  | p :: rest =>
    if rest.all (okPair clear p) then firstPairViolation clear rest else some p.ref

/-- The validation gate every strategy's result passes through. -/
def validatePlaced (b : Board) (clear : Nat) (placed : List Placed) :
    Option PlaceError :=
  match placed.find? (fun p => !okBounds b p) with
  | some p => some (.BoardTooSmall p.ref)
  | none =>
    match firstPairViolation clear placed with
    | some ref => some (.PlacementFailed ref)
    | none => none

/-- Grid cell size: the largest courtyard extent plus clearance. -/
def gridPitch (comps : List Comp) (clear : Nat) : Nat :=
  (comps.foldl (fun acc c => max acc (max c.w c.h)) 1) + clear

/-- Row-major positions on a fixed pitch grid sized to the board. -/
def gridPositions (b : Board) (clear : Nat) (comps : List Comp) : List Placed :=
  let pitch := gridPitch comps clear
  let cols := max 1 (b.w / pitch)
  comps.enum.map fun e =>
    ⟨e.2.ref, e.2.w, e.2.h, e.2.hot, (e.1 % cols) * pitch, (e.1 / cols) * pitch, 0⟩

/-- Modelled from the spec: the grid strategy — row-major placement on a
fixed pitch grid, validated; fails when the board is too small. -/
def gridPlace (b : Board) (clear : Nat) (comps : List Comp) :
    Except PlaceError (List Placed) :=
  let placed := gridPositions b clear comps
  match validatePlaced b clear placed with
  | some e => .error e
  | none => .ok placed

/-- Index of the first net a component belongs to (components sharing an
early net are grouped adjacently). -/
def clusterIdx (pnets : List (List String)) (ref : String) : Nat :=
  pnets.findIdx fun refs => decide (ref ∈ refs)

/-- Modelled from the spec: the cluster strategy — group components sharing
nets together, then grid-place in the grouped order. -/
def clusterOrder (pnets : List (List String)) (comps : List Comp) : List Comp :=
  List.insertionSort
    (fun a b => clusterIdx pnets a.ref ≤ clusterIdx pnets b.ref) comps

def clusterPlace (b : Board) (clear : Nat) (pnets : List (List String))
    (comps : List Comp) : Except PlaceError (List Placed) :=
  gridPlace b clear (clusterOrder pnets comps)

/-- Position (lower-left corner) of a component by reference. -/
def refPos (placed : List Placed) (ref : String) : Pt :=
  match placed.find? (fun p => decide (p.ref = ref)) with
  | some p => ⟨p.x, p.y⟩
  | none => ⟨0, 0⟩

def spanOf (l : List Nat) : Nat :=
  l.foldl max 0 - l.foldl min (l.headD 0)

/-- Estimated wirelength: per net hyperedge, the half-perimeter of the
bounding box of its members' positions (Manhattan distance estimate). -/
def wireLength (pnets : List (List String)) (placed : List Placed) : Nat :=
  (pnets.map fun refs =>
    spanOf (refs.map fun r => (refPos placed r).x) +
    spanOf (refs.map fun r => (refPos placed r).y)).sum

/-- Swap the positions of the components at indices `i` and `j`. -/
def swapPos (l : List Placed) (i j : Nat) : List Placed :=
  match l[i]?, l[j]? with
  | some a, some bb =>
    l.mapIdx fun k p =>
      if k = i then { p with x := bb.x, y := bb.y }
      else if k = j then { p with x := a.x, y := a.y }
      else p
  | _, _ => l

def allPairs (n : Nat) : List (Nat × Nat) :=
  (List.range n).flatMap fun i =>
    (List.range n).filterMap fun j => if i < j then some (i, j) else none

/-- Modelled from the spec: the overlap penalty term of the optimize cost —
the number of out-of-bounds courtyards plus the number of courtyard pairs
violating the clearance separation; it is zero exactly on placements that
pass the validation gate, and must be zero at convergence. -/
def overlapCount (b : Board) (clear : Nat) (placed : List Placed) : Nat :=
  (placed.filter fun p => !okBounds b p).length +
  ((allPairs placed.length).filter fun ij =>
    match placed[ij.1]?, placed[ij.2]? with
    | some p, some q => !okPair clear p q
    | _, _ => false).length

/-- Modelled from the spec: the thermal/EMI heuristic penalty — pairs of
high-current (`hot`) components closer than the doubled clearance keep-out
distance. -/
def thermalCount (clear : Nat) (placed : List Placed) : Nat :=
  ((allPairs placed.length).filter fun ij =>
    match placed[ij.1]?, placed[ij.2]? with
    | some p, some q => p.hot && q.hot && !okPair (2 * clear) p q
    | _, _ => false).length

/-- Weight of one overlap/bounds violation in the optimize cost. -/
def overlapWeight : Nat := 1000

/-- Weight of one thermal/EMI keep-out violation in the optimize cost. -/
def thermalWeight : Nat := 10

/-- Modelled from the spec: the optimize strategy's cost function — a
weighted sum of estimated wirelength, the overlap penalty and the
thermal/EMI heuristic penalty. -/
def placeCost (b : Board) (clear : Nat) (pnets : List (List String))
    (placed : List Placed) : Nat :=
  wireLength pnets placed + overlapWeight * overlapCount b clear placed +
    thermalWeight * thermalCount clear placed

/-- One local-search step: the first position swap that strictly lowers the
penalized cost (a swap may pass through or land in an overlapping state when
the wirelength gain outweighs the overlap penalty). -/
def improveOnce (pnets : List (List String)) (b : Board) (clear : Nat)
    (l : List Placed) : Option (List Placed) :=
  (allPairs l.length).findSome? fun ij =>
    let l' := swapPos l ij.1 ij.2
    if placeCost b clear pnets l' < placeCost b clear pnets l
    then some l' else none

/-- Bounded local search: stops at the iteration budget or as soon as no
strictly improving swap exists. -/
def optLoop (pnets : List (List String)) (b : Board) (clear : Nat) :
    Nat → List Placed → List Placed
  | 0, l => l
  | k + 1, l =>
    match improveOnce pnets b clear l with
    | none => l
    | some l' => optLoop pnets b clear k l'

/-- Modelled from the spec: the optimize strategy — iterative local search
from the grid placement under a fixed iteration budget; if the result does
not validate, fall back to the grid placement and report a non-fatal
placement-quality warning. -/
def optimizePlace (b : Board) (clear : Nat) (pnets : List (List String))
    (comps : List Comp) (budget : Nat) :
    Except PlaceError (List Placed) × List String :=
  match gridPlace b clear comps with
  | .error e => (.error e, [])
  | .ok base =>
    let improved := optLoop pnets b clear budget base
    match validatePlaced b clear improved with
    | none => (.ok improved, [])
    | some _ =>
      (.ok base,
        ["placement quality: optimizer failed to converge, fell back to grid placement"])

inductive Strategy where
  | grid : Strategy
  | cluster : Strategy
  | optimize : Strategy
deriving DecidableEq

/-- Modelled from the spec: strategy dispatch of the Placement Engine. -/
def placeComponents (strat : Strategy) (b : Board) (clear : Nat)
    (pnets : List (List String)) (comps : List Comp) (budget : Nat) :
    Except PlaceError (List Placed) × List String :=
  match strat with
  | .grid => (gridPlace b clear comps, [])
  | .cluster => (clusterPlace b clear pnets comps, [])
  | .optimize => optimizePlace b clear pnets comps budget

/-- A placement passing the validation gate is fully in bounds and pairwise
clearance-separated. -/
theorem validate_none_sound (b : Board) (clear : Nat) (placed : List Placed)
    (h : validatePlaced b clear placed = none) :
    (∀ p ∈ placed, okBounds b p = true) ∧
    List.Pairwise (fun p q => okPair clear p q = true) placed := by
  rw [validatePlaced] at h
  cases hfind : placed.find? (fun p => !okBounds b p) with
  | some p =>
    simp only [hfind] at h
    exact Option.noConfusion h
  | none =>
    simp only [hfind] at h
    constructor
    · intro p hp
      have := List.find?_eq_none.mp hfind p hp
      simpa using this
    · clear hfind
      induction placed with
      | nil => exact List.Pairwise.nil
      | cons p rest ih =>
        rw [firstPairViolation] at h
        by_cases hall : rest.all (okPair clear p)
        · rw [if_pos hall] at h
          refine List.Pairwise.cons ?_ (ih h)
          intro q hq
          exact List.all_eq_true.mp hall q hq
        · rw [if_neg hall] at h
          exact Option.noConfusion h

theorem firstPairViolation_ref (clear : Nat) :
    ∀ (placed : List Placed) (ref : String),
      firstPairViolation clear placed = some ref →
      ref ∈ placed.map Placed.ref := by
  intro placed
  induction placed with
  | nil => intro ref h; simp [firstPairViolation] at h
  | cons p rest ih =>
    intro ref h
    rw [firstPairViolation] at h
    by_cases hall : rest.all (okPair clear p)
    · rw [if_pos hall] at h
      exact List.mem_cons_of_mem _ (ih ref h)
    · rw [if_neg hall] at h
      simp only [Option.some.injEq] at h
      subst h
      simp

/-- A validation failure names a component of the candidate placement. -/
theorem validate_some_ref (b : Board) (clear : Nat) (placed : List Placed)
    (e : PlaceError) (h : validatePlaced b clear placed = some e) :
    ∃ r, (e = .BoardTooSmall r ∨ e = .PlacementFailed r) ∧
      r ∈ placed.map Placed.ref := by
  rw [validatePlaced] at h
  cases hfind : placed.find? (fun p => !okBounds b p) with
  | some p =>
    simp only [hfind, Option.some.injEq] at h
    refine ⟨p.ref, Or.inl h.symm, ?_⟩
    exact List.mem_map_of_mem _ (List.mem_of_find?_eq_some hfind)
  | none =>
    simp only [hfind] at h
    cases hp : firstPairViolation clear placed with
    | none =>
      simp only [hp] at h
      exact Option.noConfusion h
    | some ref =>
      simp only [hp, Option.some.injEq] at h
      exact ⟨ref, Or.inr h.symm, firstPairViolation_ref clear placed ref hp⟩

theorem gridPositions_refs (b : Board) (clear : Nat) (comps : List Comp) :
    (gridPositions b clear comps).map Placed.ref = comps.map Comp.ref := by
  simp only [gridPositions, List.map_map]
  have : (Placed.ref ∘ fun e : Nat × Comp =>
      (⟨e.2.ref, e.2.w, e.2.h, e.2.hot,
        (e.1 % max 1 (b.w / gridPitch comps clear)) * gridPitch comps clear,
        (e.1 / max 1 (b.w / gridPitch comps clear)) * gridPitch comps clear,
        0⟩ : Placed)) = fun e : Nat × Comp => e.2.ref := rfl
  rw [this]
  have h2 : (fun e : Nat × Comp => e.2.ref) = (Comp.ref ∘ Prod.snd) := rfl
  rw [h2, ← List.map_map, List.enum_map_snd]

theorem gridPlace_ok (b : Board) (clear : Nat) (comps : List Comp)
    (placed : List Placed) (h : gridPlace b clear comps = .ok placed) :
    validatePlaced b clear placed = none := by
  rw [gridPlace] at h
  cases hv : validatePlaced b clear (gridPositions b clear comps) with
  | some e =>
    simp only [hv] at h
    exact Except.noConfusion h
  | none =>
    simp only [hv, Except.ok.injEq] at h
    rw [← h]
    exact hv

theorem gridPlace_error (b : Board) (clear : Nat) (comps : List Comp)
    (e : PlaceError) (h : gridPlace b clear comps = .error e) :
    ∃ r, (e = .BoardTooSmall r ∨ e = .PlacementFailed r) ∧
      r ∈ comps.map Comp.ref := by
  rw [gridPlace] at h
  cases hv : validatePlaced b clear (gridPositions b clear comps) with
  | some e' =>
    simp only [hv, Except.error.injEq] at h
    subst h
    obtain ⟨r, hr, hmem⟩ := validate_some_ref b clear _ e' hv
    rw [gridPositions_refs] at hmem
    exact ⟨r, hr, hmem⟩
  | none =>
    simp only [hv] at h
    exact Except.noConfusion h

theorem clusterOrder_refs (pnets : List (List String)) (comps : List Comp) :
    ∀ r, r ∈ (clusterOrder pnets comps).map Comp.ref ↔ r ∈ comps.map Comp.ref := by
  intro r
  constructor <;> intro h
  · obtain ⟨c, hc, rfl⟩ := List.mem_map.mp h
    exact List.mem_map_of_mem _ ((List.perm_insertionSort _ comps).mem_iff.mp hc)
  · obtain ⟨c, hc, rfl⟩ := List.mem_map.mp h
    exact List.mem_map_of_mem _ ((List.perm_insertionSort _ comps).mem_iff.mpr hc)

/-- Whatever the optimizer does, a returned placement passed the gate. -/
theorem optimizePlace_ok (b : Board) (clear : Nat) (pnets : List (List String))
    (comps : List Comp) (budget : Nat) (placed : List Placed)
    (h : (optimizePlace b clear pnets comps budget).1 = .ok placed) :
    validatePlaced b clear placed = none := by
  rw [optimizePlace] at h
  cases hg : gridPlace b clear comps with
  | error e =>
    simp only [hg] at h
    exact Except.noConfusion h
  | ok base =>
    simp only [hg] at h
    cases hv : validatePlaced b clear (optLoop pnets b clear budget base) with
    | none =>
      simp only [hv, Except.ok.injEq] at h
      rw [← h]
      exact hv
    | some e =>
      simp only [hv, Except.ok.injEq] at h
      rw [← h]
      exact gridPlace_ok b clear comps base hg

theorem optimizePlace_error (b : Board) (clear : Nat)
    (pnets : List (List String)) (comps : List Comp) (budget : Nat)
    (e : PlaceError) (h : (optimizePlace b clear pnets comps budget).1 = .error e) :
    gridPlace b clear comps = .error e := by
  rw [optimizePlace] at h
  cases hg : gridPlace b clear comps with
  | error e' =>
    simp only [hg] at h
    rw [Except.error.inj h]
  | ok base =>
    simp only [hg] at h
    cases hv : validatePlaced b clear (optLoop pnets b clear budget base) with
    | none =>
      simp only [hv] at h
      exact Except.noConfusion h
    | some e' =>
      simp only [hv] at h
      exact Except.noConfusion h

/-- When the optimizer reports a warning it has fallen back to the grid
strategy's result. -/
theorem optimizePlace_fallback (b : Board) (clear : Nat)
    (pnets : List (List String)) (comps : List Comp) (budget : Nat)
    (h : (optimizePlace b clear pnets comps budget).2 ≠ []) :
    (optimizePlace b clear pnets comps budget).1 = gridPlace b clear comps ∧
    "placement quality: optimizer failed to converge, fell back to grid placement"
      ∈ (optimizePlace b clear pnets comps budget).2 := by
  rw [optimizePlace] at h ⊢
  cases hg : gridPlace b clear comps with
  | error e =>
    simp only [hg] at h
    exact absurd rfl h
  | ok base =>
    simp only [hg] at h ⊢
    cases hv : validatePlaced b clear (optLoop pnets b clear budget base) with
    | none =>
      simp only [hv] at h
      exact absurd rfl h
    | some e =>
      simp only [hv]
      refine ⟨?_, by simp⟩
      simp

/-!
## The shipped pipeline surface

These definitions embed the two shipped artifacts that are present in the
repository snapshot: the API documentation of `PCBLayoutEngine` in
docs/API.md and the default configuration configs/pipeline_config.yaml.
-/

structure PipelineConfig where
  auto_place : Bool
  auto_route : Bool
  placement_strategy : Strategy
  copper_layers : Nat
  clearance_um : Nat
  trace_width_um : Nat
deriving DecidableEq

/-- Modelled from the spec: the shipped defaults of configs/pipeline_config.yaml — `auto_place: true`,
`auto_route: false`, `placement_strategy: grid`, `copper_layers: 2`,
`clearance: 0.2` mm (200 µm), `default_trace_width: 0.25` mm (250 µm). -/
def defaultConfig : PipelineConfig :=
  ⟨true, false, Strategy.grid, 2, 200, 250⟩

/-- A PCB layout as handled by the shipped `PCBLayoutEngine`: components,
routed traces (per net), and vias. -/
structure PCBLayout where
  comps : List Placed
  traces : List (String × List RState)
  vias : List (Pt × Nat × Nat)
deriving DecidableEq

namespace PCBLayoutEngine

/-- Modelled from the spec: `PCBLayoutEngine.create_layout` builds a layout
holding the design's components at their initial positions, with no routed
traces and no vias. -/
def create_layout (comps : List Comp) : PCBLayout :=
  ⟨comps.map (fun c => ⟨c.ref, c.w, c.h, c.hot, 0, 0, 0⟩), [], []⟩

/-- Modelled from the spec: `PCBLayoutEngine.auto_place_components` replaces
component positions with the Placement Engine's output, leaving traces and
vias untouched. -/
def auto_place_components (b : Board) (cfg : PipelineConfig)
    (pnets : List (List String)) (comps : List Comp) (budget : Nat)
    (layout : PCBLayout) : PCBLayout :=
  match (placeComponents cfg.placement_strategy b cfg.clearance_um pnets comps
      budget).1 with
  | .ok placed => { layout with comps := placed }
  | .error _ => layout

/-- Modelled from the spec: docs/API.md documents
`auto_route(layout: PCBLayout) -> PCBLayout` as "Automatically route traces
(not implemented)" — the shipped engine performs no routing and returns the
layout unchanged. -/
def auto_route (layout : PCBLayout) : PCBLayout := layout

end PCBLayoutEngine

/-- Modelled from the spec: a shipped pipeline run — create the layout,
place components if `auto_place`, route if `auto_route`. -/
def runPipeline (cfg : PipelineConfig) (b : Board) (pnets : List (List String))
    (comps : List Comp) (budget : Nat) : PCBLayout :=
  let l0 := PCBLayoutEngine.create_layout comps
  let l1 := if cfg.auto_place then
      PCBLayoutEngine.auto_place_components b cfg pnets comps budget l0
    else l0
  if cfg.auto_route then PCBLayoutEngine.auto_route l1 else l1

/-!
## Concrete instances used by the witnesses
-/

/-- A free 3×1 single-layer grid, 10 µm pitch, no clearance. -/
def gEx : Grid :=
  ⟨3, 1, 1, 10, 0, fun _ _ _ => Cell.free⟩

def cfgEx : RouteConfig := ⟨50, 1, 40⟩

def sEx : EndPt := ⟨⟨0, 0⟩, 0⟩

def tEx : EndPt := ⟨⟨2, 0⟩, 0⟩

/-- The router's result on the example instance. -/
def prEx : PathResult :=
  (findPath gEx "a" cfgEx.viaCost cfgEx.turnCost cfgEx.fuel sEx tEx).getD ⟨[], ⟨0, 0⟩⟩

def netEx : Net := ⟨"A", false, [⟨0, 0⟩, ⟨2, 0⟩]⟩

/-- An example design: the free 3×1 board with the single 2-pin net. -/
def dEx : Design := ⟨[netEx], 3, 1, 1, 10, 0, []⟩

/-- Scenario D: a fully obstacle-saturated single-layer 2×1 board. -/
def gSat : Grid :=
  ⟨2, 1, 1, 10, 0, fun _ _ _ => Cell.obstacle⟩

def netSat : Net := ⟨"N1", false, [⟨0, 0⟩, ⟨1, 0⟩]⟩

/-- A 1×1×1 grid whose single cell is a component-courtyard obstacle. -/
def gObs : Grid := ⟨1, 1, 1, 10, 0, fun _ _ _ => Cell.obstacle⟩

/-- A narrow tall board on which the optimizer below steps into an
out-of-bounds placement. -/
def bOpt : Board := ⟨3000, 13000⟩

/-- One large component among four small ones; the grid strategy stacks
them in a single column. -/
def compsOpt : List Comp :=
  [⟨"A", 1, 1, false⟩, ⟨"B", 3000, 3000, false⟩, ⟨"C", 1, 1, false⟩,
   ⟨"D", 1, 1, false⟩, ⟨"E", 1, 1, false⟩]

/-- Nets whose wirelength gain from swapping `B` and `E` outweighs the
overlap penalty, so the local search steps into an invalid placement. -/
def pnetsOpt : List (List String) := [["B", "D"], ["D", "C"]]

/-!
## Claim theorems
-/

/-- C7 (corrected): the spec's unconditional law — `reserve` then `release`
on the same cells/layer/net restores every `is_traversable` answer — is
false in general, because `release` frees any listed cell now carrying this
net's trace: an obstacle cell overwritten by the reservation comes back
`free`, flipping `is_traversable` (the counterexample), and a pre-existing
own-net trace (legitimate under net self-merge) is freed rather than
restored.  The corrected law: when every listed cell was `free` before the
reservation — as when a freshly found path over free cells is committed —
the round trip restores the exact grid, hence every `is_traversable` value
for every cell, layer, and querying net id. -/
theorem c7_reserve_release (g : Grid) (cells : List Pt) (layer : Nat)
    (net : String) (h : ∀ p ∈ cells, g.occ p.x p.y layer = Cell.free) :
    ((g.reserve cells layer net).release cells layer net = g) ∧
    ∀ (q : Pt) (l : Nat) (m : String),
      ((g.reserve cells layer net).release cells layer net).is_traversable q l m =
        g.is_traversable q l m := by
  have hrr := release_reserve g cells layer net h
  exact ⟨hrr, fun q l m => by rw [hrr]⟩

theorem c7_witness :
    (∀ p ∈ [(⟨0, 0⟩ : Pt)], gEx.occ p.x p.y 0 = Cell.free) ∧
    (((gEx.reserve [⟨0, 0⟩] 0 "n").release [⟨0, 0⟩] 0 "n" = gEx) ∧
     ∀ (q : Pt) (l : Nat) (m : String),
       ((gEx.reserve [⟨0, 0⟩] 0 "n").release [⟨0, 0⟩] 0 "n").is_traversable q l m =
         gEx.is_traversable q l m) :=
  ⟨by intro p _; rfl, c7_reserve_release gEx [⟨0, 0⟩] 0 "n" (by intro p _; rfl)⟩

/-- C7 counterexample: on a grid whose cell is an obstacle, `reserve` then
`release` leaves the cell `free`, so `is_traversable` flips from `false` to
`true` for another net — the claim's unconditional restoration law fails. -/
theorem c7_counterexample :
    ¬ ∀ (g : Grid) (cells : List Pt) (layer : Nat) (net : String)
        (q : Pt) (l : Nat) (m : String),
        ((g.reserve cells layer net).release cells layer net).is_traversable q l m =
          g.is_traversable q l m := fun hall =>
  absurd (hall gObs [⟨0, 0⟩] 0 "n" ⟨0, 0⟩ 0 "m") (by decide)

/-- C2: for every fixed input triple (netlist, placement/obstacle model and
board geometry, routing configuration), two runs of the full routing pass
produce identical results — identical per-net trace paths, identical via
lists and identical statistics; the embedded router draws on no source of
randomness, so equal inputs give equal outputs. -/
theorem c2_determinism (d₁ d₂ : Design) (cfg₁ cfg₂ : RouteConfig)
    (hd : d₁ = d₂) (hc : cfg₁ = cfg₂) :
    (runDesign d₁ cfg₁).1.results = (runDesign d₂ cfg₂).1.results ∧
    (runDesign d₁ cfg₁).1.results.map NetResult.vias =
      (runDesign d₂ cfg₂).1.results.map NetResult.vias ∧
    (runDesign d₁ cfg₁).2 = (runDesign d₂ cfg₂).2 := by
  subst hd
  subst hc
  exact ⟨rfl, rfl, rfl⟩

theorem c2_witness :
    (runDesign dEx cfgEx).1.results = (runDesign dEx cfgEx).1.results ∧
    (runDesign dEx cfgEx).1.results.map NetResult.vias =
      (runDesign dEx cfgEx).1.results.map NetResult.vias ∧
    (runDesign dEx cfgEx).2 = (runDesign dEx cfgEx).2 :=
  c2_determinism dEx dEx cfgEx cfgEx rfl rfl

/-- C9: the Routing Orchestrator's net order is a permutation of the
declaration order (nets tagged with their declaration index) that is sorted
by the key "explicit priority first, then ascending endpoint count, then
declaration index" — a stable, total, deterministic order. -/
theorem c9_net_order (nets : List Net) :
    (orderNets nets).Perm nets.enum ∧
    List.Sorted netLe (orderNets nets) ∧
    (∀ a b : Nat × Net, netLe a b ↔
      ((a.2.priority ∧ ¬ b.2.priority) ∨
        ((a.2.priority ↔ b.2.priority) ∧
          (a.2.pins.length < b.2.pins.length ∨
            (a.2.pins.length = b.2.pins.length ∧ a.1 ≤ b.1))))) := by
  refine ⟨List.perm_insertionSort netLe nets.enum,
    List.sorted_insertionSort netLe nets.enum, ?_⟩
  intro a b
  simp only [netLe, keyLe, netRank]
  by_cases ha : a.2.priority <;> by_cases hb : b.2.priority <;>
    simp only [ha, hb, if_true, if_false] <;> simp <;> omega

/-- C10: in the repository as shipped, `PCBLayoutEngine.auto_route` performs
no routing — it returns the layout with traces and vias unchanged (API.md
documents it as "not implemented") — and the shipped default configuration
additionally disables routing (`auto_route: false`), so a default pipeline
run produces a layout containing zero routed traces and zero vias. -/
theorem c10_auto_route_stub :
    (∀ layout : PCBLayout, PCBLayoutEngine.auto_route layout = layout) ∧
    defaultConfig.auto_route = false ∧
    (∀ (b : Board) (pnets : List (List String)) (comps : List Comp)
      (budget : Nat),
      (runPipeline defaultConfig b pnets comps budget).traces = [] ∧
      (runPipeline defaultConfig b pnets comps budget).vias = []) := by
  refine ⟨fun layout => rfl, rfl, ?_⟩
  intro b pnets comps budget
  rw [runPipeline]
  simp only [defaultConfig, Bool.false_eq_true, if_false, if_true]
  rw [PCBLayoutEngine.auto_place_components]
  cases hp : (placeComponents Strategy.grid b 200 pnets comps budget).1 with
  | ok placed =>
    simp only [hp, PCBLayoutEngine.create_layout]
    exact ⟨trivial, trivial⟩
  | error e =>
    simp only [hp, PCBLayoutEngine.create_layout]
    exact ⟨trivial, trivial⟩

/-- C3: starting from a trace-free Board Grid, after every prefix of nets has
been routed — and in the final Routed Layout — each cell holds at most one
trace assignment per layer, and any two in-bounds trace cells of different
nets on the same layer are at least `ceil(clearance/cell_pitch)` cells
apart; the grid after the k-net prefix is the actual intermediate state of
the full pass, since routing the remaining nets from it yields the final
Routed Layout grid. -/
theorem c3_clearance_invariant (cfg : RouteConfig) (nets : List Net)
    (g₀ : Grid) (h0 : TraceFree g₀) (k : Nat) :
    GridInv (routeList cfg (((orderNets nets).map Prod.snd).take k) g₀).2 ∧
    GridInv (routeAll cfg nets g₀).grid ∧
    (∀ x y l n m, (routeAll cfg nets g₀).grid.occ x y l = Cell.trace n →
      (routeAll cfg nets g₀).grid.occ x y l = Cell.trace m → n = m) ∧
    (routeAll cfg nets g₀).grid =
      (routeList cfg (((orderNets nets).map Prod.snd).drop k)
        (routeList cfg (((orderNets nets).map Prod.snd).take k) g₀).2).2 := by
  have hinv := GridInv_of_TraceFree h0
  refine ⟨routeList_grid cfg _ g₀ hinv, routeList_grid cfg _ g₀ hinv, ?_, ?_⟩
  · intro x y l n m h1 h2
    rw [h1] at h2
    exact Cell.trace.inj h2
  · show (routeList cfg ((orderNets nets).map Prod.snd) g₀).2 = _
    conv_lhs => rw [← List.take_append_drop k ((orderNets nets).map Prod.snd)]
    rw [routeList_append]

theorem c3_witness :
    TraceFree gEx ∧
    (GridInv (routeList cfgEx (((orderNets [netEx]).map Prod.snd).take 1) gEx).2 ∧
     GridInv (routeAll cfgEx [netEx] gEx).grid ∧
     (∀ x y l n m, (routeAll cfgEx [netEx] gEx).grid.occ x y l = Cell.trace n →
       (routeAll cfgEx [netEx] gEx).grid.occ x y l = Cell.trace m → n = m) ∧
     (routeAll cfgEx [netEx] gEx).grid =
       (routeList cfgEx (((orderNets [netEx]).map Prod.snd).drop 1)
         (routeList cfgEx (((orderNets [netEx]).map Prod.snd).take 1) gEx).2).2) :=
  ⟨fun x y l n _ _ _ => fun hc => Cell.noConfusion hc,
   c3_clearance_invariant cfgEx [netEx] gEx
     (fun x y l n _ _ _ => fun hc => Cell.noConfusion hc) 1⟩

/-- C5: for every placement strategy (grid, cluster, optimize), the Placement
Engine either returns a placement in which every component's rotated
courtyard lies fully inside board bounds and any two courtyards keep at
least the configured clearance, or it fails with `BoardTooSmall` /
`PlacementFailed` naming a component of the design; it never returns an
overlapping or out-of-bounds placement. -/
theorem c5_placement (strat : Strategy) (b : Board) (clear : Nat)
    (pnets : List (List String)) (comps : List Comp) (budget : Nat) :
    (∀ placed, (placeComponents strat b clear pnets comps budget).1 = .ok placed →
      (∀ p ∈ placed, okBounds b p = true) ∧
      List.Pairwise (fun p q => okPair clear p q = true) placed) ∧
    (∀ e, (placeComponents strat b clear pnets comps budget).1 = .error e →
      ∃ r, (e = .BoardTooSmall r ∨ e = .PlacementFailed r) ∧
        r ∈ comps.map Comp.ref) := by
  cases strat with
  | grid =>
    constructor
    · intro placed h
      exact validate_none_sound b clear placed (gridPlace_ok b clear comps placed h)
    · intro e h
      exact gridPlace_error b clear comps e h
  | cluster =>
    constructor
    · intro placed h
      exact validate_none_sound b clear placed
        (gridPlace_ok b clear (clusterOrder pnets comps) placed h)
    · intro e h
      obtain ⟨r, hr, hmem⟩ := gridPlace_error b clear (clusterOrder pnets comps) e h
      exact ⟨r, hr, (clusterOrder_refs pnets comps r).mp hmem⟩
  | optimize =>
    constructor
    · intro placed h
      exact validate_none_sound b clear placed
        (optimizePlace_ok b clear pnets comps budget placed h)
    · intro e h
      exact gridPlace_error b clear comps e
        (optimizePlace_error b clear pnets comps budget e h)

/-- C8: the optimize placement strategy — local search over the penalized
cost (wirelength + weighted overlap penalty + weighted thermal/EMI
penalty) — terminates on every input: the search is bounded by the fixed
iteration budget and additionally stops as soon as no strictly improving
swap exists; it never returns overlapping placements, since a returned
placement always passes the bounds-and-clearance gate, and when the
optimised candidate does not validate the engine falls back to the grid
strategy's placement and reports a non-fatal placement-quality warning —
a reachable outcome, exercised by the concrete run on `bOpt`/`compsOpt`
where a wirelength-improving swap lands out of bounds and the budget ends
there. -/
theorem c8_optimize_safe (b : Board) (clear : Nat) (pnets : List (List String))
    (comps : List Comp) (budget : Nat) :
    (∀ l, optLoop pnets b clear 0 l = l) ∧
    (∀ k l, improveOnce pnets b clear l = none →
      optLoop pnets b clear (k + 1) l = l) ∧
    (∀ placed, (optimizePlace b clear pnets comps budget).1 = .ok placed →
      (∀ p ∈ placed, okBounds b p = true) ∧
      List.Pairwise (fun p q => okPair clear p q = true) placed) ∧
    ((optimizePlace b clear pnets comps budget).2 ≠ [] →
      (optimizePlace b clear pnets comps budget).1 = gridPlace b clear comps ∧
      "placement quality: optimizer failed to converge, fell back to grid placement"
        ∈ (optimizePlace b clear pnets comps budget).2) ∧
    ((optimizePlace bOpt 0 pnetsOpt compsOpt 1).1 = gridPlace bOpt 0 compsOpt ∧
     (optimizePlace bOpt 0 pnetsOpt compsOpt 1).2 =
       ["placement quality: optimizer failed to converge, fell back to grid placement"]) := by
  refine ⟨fun l => rfl, ?_, ?_, optimizePlace_fallback b clear pnets comps budget,
    rfl, rfl⟩
  · intro k l h
    rw [optLoop, h]
  · intro placed h
    exact validate_none_sound b clear placed
      (optimizePlace_ok b clear pnets comps budget placed h)

/-- C4: for every net the Routing Orchestrator marks "routed" (no failed
tree edge), the routed segments are exactly well-formed state paths, one per
minimum-spanning-tree edge of the net's pins, each connecting its two
endpoint cells, and the union of the segments links every pair of the net's
pin coordinates (equivalence closure of the segment-endpoint relation) —
no dangling or disconnected sub-path. -/
theorem c4_routed_connectivity (cfg : RouteConfig) (nets : List Net)
    (g₀ : Grid) :
    List.Forall₂ (fun (n : Net) (r : NetResult) =>
      r.name = n.name ∧
      (r.routedB = true →
        (∀ sg ∈ r.segs, SegOK sg ∧ ∃ e ∈ mstEdges n.pins,
          sg.1 = (⟨e.1, 0⟩ : EndPt) ∧ sg.2.1 = (⟨e.2, 0⟩ : EndPt) ∧
          e.1 ∈ n.pins ∧ e.2 ∈ n.pins) ∧
        (∀ e ∈ mstEdges n.pins, ∃ sg ∈ r.segs,
          sg.1 = (⟨e.1, 0⟩ : EndPt) ∧ sg.2.1 = (⟨e.2, 0⟩ : EndPt)) ∧
        (∀ p ∈ n.pins, ∀ q ∈ n.pins,
          Relation.EqvGen (fun a b => ∃ sg ∈ r.segs,
            sg.1.pt = a ∧ sg.2.1.pt = b) p q)))
      ((orderNets nets).map Prod.snd) (routeAll cfg nets g₀).results := by
  have hres : (routeAll cfg nets g₀).results =
      (routeList cfg ((orderNets nets).map Prod.snd) g₀).1 := rfl
  rw [hres]
  apply List.Forall₂.imp ?_ (routeList_spec cfg ((orderNets nets).map Prod.snd) g₀)
  rintro n r ⟨gm, rfl⟩
  obtain ⟨hname, hsegs, hcomplete⟩ := routeNet_spec cfg gm n
  refine ⟨hname, ?_⟩
  intro hrouted
  have hfail : (routeNet cfg gm n).1.failed = [] := by
    rw [NetResult.routedB] at hrouted
    exact List.isEmpty_iff.mp hrouted
  refine ⟨?_, hcomplete hfail, ?_⟩
  · intro sg hsg
    obtain ⟨hok, e, he, h1, h2⟩ := hsegs sg hsg
    obtain ⟨hp1, hp2⟩ := mstEdges_ends n.pins e he
    exact ⟨hok, e, he, h1, h2, hp1, hp2⟩
  · intro p hp q hq
    apply Relation.EqvGen.mono ?_ (mstEdges_connects n.pins p hp q hq)
    intro a b hab
    obtain ⟨sg, hsg, h1, h2⟩ := hcomplete hfail (a, b) hab
    exact ⟨sg, hsg, by rw [h1], by rw [h2]⟩

/-- C6: a `NoPathFound` on any tree edge or net (a search-budget exhaustion
is the same `none` result and is handled identically) never aborts the
routing pass: every net is processed and produces a per-net result, and any
net with a failure is recorded in the `unrouted_nets` statistic; on the
fully obstacle-saturated single-layer board with one 2-pin net, the pass
completes with that net unrouted and `completion_rate = 0`. -/
theorem c6_failure_containment (cfg : RouteConfig) (nets : List Net)
    (g₀ : Grid) :
    ((routeAll cfg nets g₀).results.length = nets.length ∧
     List.Forall₂ (fun (n : Net) (r : NetResult) => r.name = n.name)
       ((orderNets nets).map Prod.snd) (routeAll cfg nets g₀).results ∧
     (∀ r ∈ (routeAll cfg nets g₀).results,
       r.routedB = true ∨ r.name ∈ (routeAll cfg nets g₀).unroutedNets)) ∧
    (∀ (g : Grid) (net : String) (vc tc : Nat) (s t : EndPt),
      findPath g net vc tc 0 s t = none) ∧
    ((routeAll ⟨50, 1, 40⟩ [netSat] gSat).unroutedNets = ["N1"] ∧
     (routeAll ⟨50, 1, 40⟩ [netSat] gSat).completionRate = 0) := by
  have hres : (routeAll cfg nets g₀).results =
      (routeList cfg ((orderNets nets).map Prod.snd) g₀).1 := rfl
  refine ⟨⟨?_, ?_, ?_⟩, fun g net vc tc s t => findPath_zero_fuel g net vc tc s t,
    ?_, ?_⟩
  · rw [hres]
    have h1 := (routeList_spec cfg ((orderNets nets).map Prod.snd) g₀).length_eq
    rw [← h1, List.length_map, orderNets,
      (List.perm_insertionSort netLe nets.enum).length_eq, List.enum_length]
  · rw [hres]
    apply List.Forall₂.imp ?_ (routeList_spec cfg ((orderNets nets).map Prod.snd) g₀)
    rintro n r ⟨gm, rfl⟩
    exact (routeNet_spec cfg gm n).1
  · intro r hr
    by_cases hb : r.routedB = true
    · exact Or.inl hb
    · right
      rw [RouteOutcome.unroutedNets]
      apply List.mem_map_of_mem
      apply List.mem_filter.mpr
      exact ⟨hr, by simp [hb]⟩
  · decide
  · have h1 : (routeAll ⟨50, 1, 40⟩ [netSat] gSat).routedEdges = 0 := by decide
    have h2 : (routeAll ⟨50, 1, 40⟩ [netSat] gSat).totalEdges = 1 := by decide
    rw [RouteOutcome.completionRate, h1, h2]
    norm_num

/-- C1: for every pair of endpoints and every net id, the Path Router
searches the grid graph of cells traversable for that net — planar edges
cost one cell pitch, diagonal edges cost pitch·√2, layer changes are extra
edges at via-eligible cells costing the via penalty, and each turn adds the
fixed turn penalty (the tie-break) — and when the search succeeds the
returned path is a valid chain between the endpoints whose real cost is
minimal among all valid chains, every cell of it is traversable for the
net, and the orchestrator's edge step commits exactly its cells into Board
Grid occupancy via `reserve` (`commitPath` folds `reserve` per layer). -/
theorem c1_path_router_minimal (g : Grid) (net : String) (cfg : RouteConfig)
    (s t : EndPt) (pr : PathResult)
    (h : findPath g net cfg.viaCost cfg.turnCost cfg.fuel s t = some pr) :
    ValidChain g net cfg.viaCost cfg.turnCost s t pr.path pr.cost ∧
    (∀ l₂ c₂, ValidChain g net cfg.viaCost cfg.turnCost s t l₂ c₂ →
      pr.cost.toReal ≤ c₂.toReal) ∧
    (∀ σ ∈ pr.path, g.is_traversable σ.pt σ.layer net = true) ∧
    (∀ σ τ e, edgeCost g net cfg.viaCost cfg.turnCost σ τ = some e →
      e.toReal = if τ.layer = σ.layer then
          ((if isDiag τ.dir then (g.pitch : ℝ) * Real.sqrt 2 else (g.pitch : ℝ)) +
            (if σ.dir ≠ 8 ∧ σ.dir ≠ τ.dir then (cfg.turnCost : ℝ) else 0))
        else (cfg.viaCost : ℝ)) ∧
    (∀ r : NetResult, s.layer = 0 → t.layer = 0 →
      (routeEdgeStep cfg net (r, g) (s.pt, t.pt)).2 =
        g.commitPath (cellsOf pr.path) net) := by
  obtain ⟨hv, hmin, htrav⟩ :=
    findPath_spec g net cfg.viaCost cfg.turnCost cfg.fuel s t pr h
  refine ⟨hv, hmin, htrav,
    fun σ τ e he => edgeCost_real g net cfg.viaCost cfg.turnCost σ τ e he, ?_⟩
  intro r hs ht
  have hstep := routeEdgeStep_eq cfg net (r, g) (s.pt, t.pt)
  simp only at hstep
  have hs' : (⟨s.pt, 0⟩ : EndPt) = s := by rw [← hs]
  have ht' : (⟨t.pt, 0⟩ : EndPt) = t := by rw [← ht]
  rw [hs', ht', h] at hstep
  rw [hstep]

theorem c1_witness :
    findPath gEx "a" cfgEx.viaCost cfgEx.turnCost cfgEx.fuel sEx tEx = some prEx ∧
    (ValidChain gEx "a" cfgEx.viaCost cfgEx.turnCost sEx tEx prEx.path prEx.cost ∧
     (∀ l₂ c₂, ValidChain gEx "a" cfgEx.viaCost cfgEx.turnCost sEx tEx l₂ c₂ →
       prEx.cost.toReal ≤ c₂.toReal) ∧
     (∀ σ ∈ prEx.path, gEx.is_traversable σ.pt σ.layer "a" = true) ∧
     (∀ σ τ e, edgeCost gEx "a" cfgEx.viaCost cfgEx.turnCost σ τ = some e →
       e.toReal = if τ.layer = σ.layer then
           ((if isDiag τ.dir then (gEx.pitch : ℝ) * Real.sqrt 2 else (gEx.pitch : ℝ)) +
             (if σ.dir ≠ 8 ∧ σ.dir ≠ τ.dir then (cfgEx.turnCost : ℝ) else 0))
         else (cfgEx.viaCost : ℝ)) ∧
     (∀ r : NetResult, sEx.layer = 0 → tEx.layer = 0 →
       (routeEdgeStep cfgEx "a" (r, gEx) (sEx.pt, tEx.pt)).2 =
         gEx.commitPath (cellsOf prEx.path) "a")) :=
  ⟨rfl, c1_path_router_minimal gEx "a" cfgEx sEx tEx prEx rfl⟩
